import Mathlib

/-!
Verification of the O(n)-alyser complexity-estimation engine.

The TypeScript sources are embedded shallowly: source text is `List Char`,
the JavaScript regular expressions used by the engine are implemented as
explicit scanners with the same matching semantics (word boundaries, lazy
and greedy quantifiers, leftmost match, global non-overlapping counting),
and the stateful pieces (the shared `/g` regexes' `lastIndex` fields) are
modelled by explicit state passing.
-/

namespace Onalyser

/-! ## Character classes (JS `\s`, `\w`, `\d`, identifier starts) -/

/-- JS whitespace class `\s` (the ASCII part, which is all the sources use). -/
def isSpaceChar (c : Char) : Bool :=
  c = ' ' || c = '\t' || c = '\n' || c = '\r' || c = '\x0b' || c = '\x0c'

/-- JS word class `\w` = `[A-Za-z0-9_]`. -/
def isWordChar (c : Char) : Bool :=
  ('a' ≤ c && c ≤ 'z') || ('A' ≤ c && c ≤ 'Z') || ('0' ≤ c && c ≤ '9') || c = '_'

/-- Identifier start class `[A-Za-z_]`. -/
def isIdentStartChar (c : Char) : Bool :=
  ('a' ≤ c && c ≤ 'z') || ('A' ≤ c && c ≤ 'Z') || c = '_'

/-- JS digit class `\d` = `[0-9]`. -/
def isDigitChar (c : Char) : Bool := '0' ≤ c && c ≤ '9'

/-- `\s*`: drop leading whitespace. -/
def skipSpaces (l : List Char) : List Char := l.dropWhile isSpaceChar

/-- JS `String.prototype.trim` on a character list: strip whitespace at both ends. -/
def trimLeft (l : List Char) : List Char := l.dropWhile isSpaceChar

/-- Strip trailing whitespace. -/
def trimRight (l : List Char) : List Char := (l.reverse.dropWhile isSpaceChar).reverse

/-- JS `trim`: strip whitespace at both ends. -/
def trimChars (l : List Char) : List Char := trimRight (trimLeft l)

/-- The character before the current scan position is a word boundary
(start of input counts as one). -/
def prevNonWord : Option Char → Bool
  | none => true
  | some c => !isWordChar c

/-- `wordMatch w s` : `w` is a prefix of `s` and is followed by a word boundary
(end of input or a non-word character).  Together with `prevNonWord` on the
preceding character this is JS `\bw\b` anchored at the current position. -/
def wordMatch : List Char → List Char → Bool
  | [], [] => true
  | [], c :: _ => !isWordChar c
  | _ :: _, [] => false
  | wc :: w, c :: s => wc == c && wordMatch w s

/-- Case-insensitive variant of `wordMatch` (for `/i` regexes). -/
def wordMatchCI : List Char → List Char → Bool
  | [], [] => true
  | [], c :: _ => !isWordChar c
  | _ :: _, [] => false
  | wc :: w, c :: s => wc.toLower == c.toLower && wordMatchCI w s

/-- Number of matches of `/\bw\b/g` in the text (JS `match(...).length`):
all positions where the keyword occurs between word boundaries.  Matches of a
word pattern never overlap, so the position count equals the JS
non-overlapping global count. -/
def countWordFrom (w : List Char) : Option Char → List Char → Nat
  | _, [] => 0
  | prev, c :: rest =>
    (if prevNonWord prev && wordMatch w (c :: rest) then 1 else 0) +
      countWordFrom w (some c) rest

/-- Generic leftmost-scan for a `test()`-style regex: `pat prev s` decides a
match anchored at the head of `s`, where `prev` is the preceding character. -/
def scanAny (pat : Option Char → List Char → Bool) : Option Char → List Char → Bool
  | _, [] => false
  | prev, c :: rest => pat prev (c :: rest) || scanAny pat (some c) rest

/-- Case-insensitive literal prefix: if the lower-cased pattern is a prefix of
the lower-cased input, return the rest of the input. -/
def ciStrip : List Char → List Char → Option (List Char)
  | [], s => some s
  | _ :: _, [] => none
  | pc :: p, c :: s => if pc.toLower == c.toLower then ciStrip p s else none

/-- Case-sensitive literal prefix, returning the rest of the input. -/
def litStrip : List Char → List Char → Option (List Char)
  | [], s => some s
  | _ :: _, [] => none
  | pc :: p, c :: s => if pc == c then litStrip p s else none

/-! ## Line splitting (JS `text.split("\n")`) -/

/-- JS `split("\n")`: the list of lines, empty pieces kept. -/
def splitOnNl : List Char → List (List Char)
  | [] => [[]]
  | c :: rest =>
    if c = '\n' then [] :: splitOnNl rest
    else
      match splitOnNl rest with
      | [] => [[c]]
      | l :: ls => (c :: l) :: ls

/-- Joining the lines back with newlines (used only in proofs). -/
def joinLines : List (List Char) → List Char
  | [] => []
  | [l] => l
  | l :: ls => l ++ '\n' :: joinLines ls

/-! ## Comment stripping (`profiles.ts`)

`removeCComments` / `removeJavaComments` are
`code.replace(/\/\*[\s\S]*?\*\//g, "").replace(/\/\/.*$/gm, "")`;
`removePythonComments` removes `"""..."""` blocks, then `'''...'''` blocks,
then `#...` line comments.  The global lazy block replace removes, left to
right, each `/*` together with everything up to the first following `*/`,
leaving an opener without a closer untouched; replacements are not rescanned. -/

/-- Scan for the first `*/` and return the suffix after it. -/
def findClose : List Char → Option (List Char)
  | a :: b :: rest =>
    if a = '*' && b = '/' then some rest else findClose (b :: rest)
  | _ => none

theorem findClose_length_lt : ∀ l r, findClose l = some r → r.length < l.length := by
  intro l
  induction l with
  | nil => intro r h; simp [findClose] at h
  | cons a rest ih =>
    intro r h
    match rest, h with
    | [], h => simp [findClose] at h
    | b :: rest', h =>
      rw [show findClose (a :: b :: rest') =
            if a = '*' && b = '/' then some rest'
            else findClose (b :: rest') from rfl] at h
      split at h
      · cases h; simp only [List.length]; omega
      · have := ih r h
        simp only [List.length] at *
        omega

/-- `replace(/\/\*[\s\S]*?\*\//g, "")` as a streaming scan.  Outside a
comment (`none`) text is copied and `/*` enters a comment; inside (`some buf`,
holding the consumed characters for possible restoration) the first `*/`
closes it; an unclosed trailing opener is restored verbatim, since the lazy
global replace leaves an opener without a closer untouched. -/
def stripBlockAux : Option (List Char) → List Char → List Char
  | none, '/' :: '*' :: rest => stripBlockAux (some []) rest
  | none, c :: rest => c :: stripBlockAux none rest
  | none, [] => []
  | some _, '*' :: '/' :: rest => stripBlockAux none rest
  | some buf, c :: rest => stripBlockAux (some (c :: buf)) rest
  | some buf, [] => '/' :: '*' :: buf.reverse

def stripBlockComments (code : List Char) : List Char := stripBlockAux none code

/-- `.*`: drop up to (excluding) the next line terminator. -/
def dropLine (l : List Char) : List Char := l.dropWhile (fun c => !(c = '\n' || c = '\r'))

/-- `replace(/\/\/.*$/gm, "")` as a streaming scan: the flag records being
inside a `//` comment, which a line terminator ends (`.` matches neither
`\n` nor `\r`, and `$` with `/m` stops before them). -/
def stripSlashAux : Bool → List Char → List Char
  | false, '/' :: '/' :: rest => stripSlashAux true rest
  | false, c :: rest => c :: stripSlashAux false rest
  | false, [] => []
  | true, c :: rest =>
    if c = '\n' || c = '\r' then c :: stripSlashAux false rest
    else stripSlashAux true rest
  | true, [] => []

def stripSlashComments (code : List Char) : List Char := stripSlashAux false code

/-- `replace(/#.*$/gm, "")` as a streaming scan. -/
def stripHashAux : Bool → List Char → List Char
  | false, c :: rest =>
    if c = '#' then stripHashAux true rest
    else c :: stripHashAux false rest
  | false, [] => []
  | true, c :: rest =>
    if c = '\n' || c = '\r' then c :: stripHashAux false rest
    else stripHashAux true rest
  | true, [] => []

def stripHashComments (code : List Char) : List Char := stripHashAux false code

/-- Scan for the first triple occurrence of the quote `q` and return the
suffix after it. -/
def findTriple (q : Char) : List Char → Option (List Char)
  | a :: b :: c :: rest =>
    if a = q && b = q && c = q then some rest
    else findTriple q (b :: c :: rest)
  | _ => none

theorem findTriple_length_lt (q : Char) :
    ∀ l r, findTriple q l = some r → r.length < l.length := by
  intro l
  induction l with
  | nil => intro r h; simp [findTriple] at h
  | cons a rest ih =>
    intro r h
    match rest, h with
    | [], h => simp [findTriple] at h
    | [b], h => simp [findTriple] at h
    | b :: c :: rest', h =>
      rw [show findTriple q (a :: b :: c :: rest') =
            if a = q && b = q && c = q then some rest'
            else findTriple q (b :: c :: rest') from rfl] at h
      split at h
      · cases h; simp only [List.length]; omega
      · have := ih r h
        simp only [List.length] at *
        omega

/-- `replace(/qqq[\s\S]*?qqq/g, "")` for a triple-quote delimiter, as a
streaming scan with the same conventions as `stripBlockAux` (an opener
without a closer is restored verbatim). -/
def stripTripleAux (q : Char) : Option (List Char) → List Char → List Char
  | none, a :: b :: c :: rest =>
    if a = q && b = q && c = q then stripTripleAux q (some []) rest
    else a :: stripTripleAux q none (b :: c :: rest)
  | none, other => other
  | some buf, a :: b :: c :: rest =>
    if a = q && b = q && c = q then stripTripleAux q none rest
    else stripTripleAux q (some (a :: buf)) (b :: c :: rest)
  | some buf, other => q :: q :: q :: (buf.reverse ++ other)

def stripTripleQuoted (q : Char) (code : List Char) : List Char :=
  stripTripleAux q none code

/-- `removeCComments` from `profiles.ts`. -/
def removeCComments (code : List Char) : List Char :=
  stripSlashComments (stripBlockComments code)

/-- `removeJavaComments` from `profiles.ts` (same replaces as the C variant). -/
def removeJavaComments (code : List Char) : List Char :=
  stripSlashComments (stripBlockComments code)

/-- The single-quote character, used for Python `'''` blocks. -/
def squote : Char := Char.ofNat 39

/-- `removePythonComments` from `profiles.ts`: `"""` blocks, then `'''` blocks,
then `#` line comments. -/
def removePythonComments (code : List Char) : List Char :=
  stripHashComments (stripTripleQuoted squote (stripTripleQuoted '"' code))

/-! ## Language tags and profiles (`profiles.ts`) -/

/-- `type Lang = "auto" | "python" | "java" | "c"`. -/
inductive Lang where
  | auto | python | java | c
deriving DecidableEq, Repr

/-- `Exclude<Lang, "auto">`: the supported languages. -/
inductive SLang where
  | python | java | c
deriving DecidableEq, Repr

/-- `chosenLang === "auto" ? "python" : chosenLang`. -/
def resolveLang : Lang → SLang
  | .auto => .python
  | .python => .python
  | .java => .java
  | .c => .c

def kwFor : List Char := "for".toList
def kwWhile : List Char := "while".toList
def kwDo : List Char := "do".toList
def kwIn : List Char := "in".toList
def kwReturn : List Char := "return".toList

/-- `/\bsorted\s*\(/i`-style test: word-boundary keyword (case-insensitive),
optional whitespace, then an opening parenthesis. -/
def wordParenAt (w : List Char) (prev : Option Char) (s : List Char) : Bool :=
  prevNonWord prev &&
    match ciStrip w s with
    | some r =>
      match skipSpaces r with
      | '(' :: _ => true
      | _ => false
    | none => false

/-- `/\.sort\s*\(/i`-style test: a literal dot, keyword (case-insensitive),
optional whitespace, then an opening parenthesis. -/
def dotWordParenAt (w : List Char) (_ : Option Char) (s : List Char) : Bool :=
  match s with
  | '.' :: r =>
    (match ciStrip w r with
     | some r2 =>
       match skipSpaces r2 with
       | '(' :: _ => true
       | _ => false
     | none => false)
  | _ => false

/-- `/\bArrays\.sort\b/i`-style test: word-boundary first word, a dot, then the
second word followed by a word boundary (all case-insensitive). -/
def wordDotWordAt (w1 w2 : List Char) (prev : Option Char) (s : List Char) : Bool :=
  prevNonWord prev &&
    match ciStrip w1 s with
    | some ('.' :: r) => wordMatchCI w2 r
    | _ => false

/-- The `LanguageProfile` record from `profiles.ts`.  The loop regexes
`/\bfor\b/g` etc. are represented by their keywords; the sort regexes by
anchored test functions. -/
structure LanguageProfile where
  name : SLang
  usesBraces : Bool
  removeComments : List Char → List Char
  loopWords : List (List Char)
  sortTests : List (Option Char → List Char → Bool)

/-- The `PROFILES` record from `profiles.ts`. -/
def PROFILES : SLang → LanguageProfile
  | .python =>
    { name := .python
      usesBraces := false
      removeComments := removePythonComments
      loopWords := [kwFor, kwWhile]
      sortTests := [wordParenAt "sorted".toList, dotWordParenAt "sort".toList] }
  | .java =>
    { name := .java
      usesBraces := true
      removeComments := removeJavaComments
      loopWords := [kwFor, kwWhile, kwDo]
      sortTests := [wordDotWordAt "Arrays".toList "sort".toList,
                    wordDotWordAt "Collections".toList "sort".toList,
                    dotWordParenAt "sort".toList] }
  | .c =>
    { name := .c
      usesBraces := true
      removeComments := removeCComments
      loopWords := [kwFor, kwWhile, kwDo]
      sortTests := [wordParenAt "qsort".toList] }

/-! ## Loop-bound extraction and classification (`analyse.ts`) -/

/-- Generic leftmost-match scan returning the first per-position success. -/
def scanFirst (pat : Option Char → List Char → Option (List Char)) :
    Option Char → List Char → Option (List Char)
  | _, [] => none
  | prev, c :: rest =>
    match pat prev (c :: rest) with
    | some x => some x
    | none => scanFirst pat (some c) rest

/-- `[A-Za-z_]\w*` at the head of the input (greedy, empty if no match). -/
def takeIdent (l : List Char) : List Char :=
  match l with
  | c :: _ => if isIdentStartChar c then l.takeWhile isWordChar else []
  | [] => []

/-- `.+?X` lazy gap: consume at least one non-line-terminator character, then
try the continuation at each subsequent position (first success wins). -/
def gapThen (pat : Option Char → List Char → Option (List Char)) :
    List Char → Option (List Char)
  | [] => none
  | c :: rest =>
    if c = '\n' || c = '\r' then none
    else
      match pat (some c) rest with
      | some x => some x
      | none => gapThen pat rest

/-- `.+X` gap for a boolean continuation (used by `test()`-style regexes). -/
def gapAny (pat : Option Char → List Char → Bool) : List Char → Bool
  | [] => false
  | c :: rest =>
    if c = '\n' || c = '\r' then false
    else pat (some c) rest || gapAny pat rest

/-- Continuation `\bin\b\s*range\s*\(\s*([^,)]+)\s*` of the Python `for` bound
regex (the capture is the greedy nonempty run of non-`,)` characters). -/
def pyInRangeAt (prev : Option Char) (s : List Char) : Option (List Char) :=
  if prevNonWord prev && wordMatch kwIn s then
    match litStrip "range".toList (skipSpaces (s.drop 2)) with
    | some r2 =>
      match skipSpaces r2 with
      | '(' :: r4 =>
        let cap := (skipSpaces r4).takeWhile fun c => !(c == ',' || c == ')')
        if cap.isEmpty then none else some cap
      | _ => none
    | none => none
  else none

/-- `\bfor\b.+?\bin\b\s*range\s*\(\s*([^,)]+)\s*` anchored at one position. -/
def pyForRangeAt (prev : Option Char) (s : List Char) : Option (List Char) :=
  if prevNonWord prev && wordMatch kwFor s then gapThen pyInRangeAt (s.drop 3)
  else none

/-- All candidate `<` positions for a greedy `.+<` gap: successes collected
left to right; the greedy regex commits to the rightmost one. -/
def greedyLtCandidates (completion : List Char → Option (List Char)) :
    List Char → List (List Char)
  | [] => []
  | c :: rest =>
    if c = '\n' || c = '\r' then []
    else
      match if c = '<' then completion rest else none with
      | some cap => cap :: greedyLtCandidates completion rest
      | none => greedyLtCandidates completion rest

/-- `\bwhile\b.+<\s*([A-Za-z_]\w*)` anchored at one position: greedy gap, so
the rightmost `<` with a following identifier wins. -/
def pyWhileLtAt (prev : Option Char) (s : List Char) : Option (List Char) :=
  if prevNonWord prev && wordMatch kwWhile s then
    -- the gap `.+` requires at least one character before the `<`
    match s.drop 5 with
    | [] => none
    | g :: rest =>
      if g = '\n' || g = '\r' then none
      else (greedyLtCandidates (fun r => let id := takeIdent (skipSpaces r)
                                         if id.isEmpty then none else some id) rest).getLast?
  else none

/-- Completion `\s*([A-Za-z_]\w*)\s*;` after a `<` (C/Java `for` bound). -/
def ltIdentSemi (r : List Char) : Option (List Char) :=
  let id := takeIdent (skipSpaces r)
  if id.isEmpty then none
  else
    match skipSpaces ((skipSpaces r).drop id.length) with
    | ';' :: _ => some id
    | _ => none

/-- Completion `\s*([A-Za-z_]\w*)` after a `<` (C/Java `while` bound). -/
def ltIdent (r : List Char) : Option (List Char) :=
  let id := takeIdent (skipSpaces r)
  if id.isEmpty then none else some id

/-- `.*?<` lazy gap: try the `<` continuation at each position starting with a
zero-width gap, not crossing a line terminator. -/
def lazyLt (completion : List Char → Option (List Char)) :
    List Char → Option (List Char)
  | [] => none
  | c :: rest =>
    if c = '\n' || c = '\r' then none
    else if c = '<' then
      match completion rest with
      | some cap => some cap
      | none => lazyLt completion rest
    else lazyLt completion rest

/-- `\bKW\b\s*\(.*?<` + completion, anchored at one position (C/Java bounds). -/
def cLoopLtAt (kw : List Char) (completion : List Char → Option (List Char))
    (prev : Option Char) (s : List Char) : Option (List Char) :=
  if prevNonWord prev && wordMatch kw s then
    match skipSpaces (s.drop kw.length) with
    | '(' :: r => lazyLt completion r
    | _ => none
  else none

/-- `extractLoopBound` from `analyse.ts`. -/
def extractLoopBound (line : List Char) (lang : SLang) : Option (List Char) :=
  let t := trimChars line
  match lang with
  | .python =>
    match scanFirst pyForRangeAt none t with
    | some cap => some cap
    | none => scanFirst pyWhileLtAt none t
  | _ =>
    match scanFirst (cLoopLtAt kwFor ltIdentSemi) none t with
    | some cap => some cap
    | none => scanFirst (cLoopLtAt kwWhile ltIdent) none t

/-- The three bound classes of `classifyBound`. -/
inductive BoundClass where
  | constant | logN | linearN
deriving DecidableEq, Repr

/-- `classifyBound` from `analyse.ts`. -/
def classifyBound (bound : List Char) : BoundClass :=
  let clean := trimChars bound
  if clean.isEmpty then .linearN
  else if clean.all isDigitChar then .constant
  else if scanAny
      (fun prev s => prevNonWord prev &&
        (wordMatchCI "log".toList s || wordMatchCI "ln".toList s)) none clean then
    .logN
  else .linearN

def cLogOps : List (List Char) := ["*=", "/=", ">>=", "<<="].map String.toList
def pyLogOps : List (List Char) := ["//=", "*="].map String.toList

/-- `(?:OPS)\s*\d+` anchored at one position. -/
def opDigitsAt (ops : List (List Char)) (_ : Option Char) (s : List Char) : Bool :=
  ops.any fun op =>
    match litStrip op s with
    | some r =>
      (match skipSpaces r with
       | d :: _ => isDigitChar d
       | [] => false)
    | none => false

/-- `detectLogLoop` from `analyse.ts`. -/
def detectLogLoop (line : List Char) (lang : SLang) : Bool :=
  let t := trimChars line
  match lang with
  | .python =>
    -- /\bwhile\b.+(?:\/\/=|\*=)\s*\d+/i
    scanAny
      (fun prev s => prevNonWord prev && wordMatchCI kwWhile s &&
        gapAny (opDigitsAt pyLogOps) (s.drop 5)) none t
  | _ =>
    (scanAny (fun prev s => prevNonWord prev && wordMatch kwFor s) none t ||
      scanAny (fun prev s => prevNonWord prev && wordMatch kwWhile s) none t) &&
      scanAny (opDigitsAt cLogOps) none t

/-- `detectGlobalLogProgression` from `analyse.ts`. -/
def detectGlobalLogProgression (text : List Char) (lang : SLang) : Bool :=
  match lang with
  | .python => scanAny (opDigitsAt pyLogOps) none text
  | _ => scanAny (opDigitsAt cLogOps) none text

/-! ## Recursion detection (`detectRecursionComplexity` in `analyse.ts`)

The candidate collector is
`/\b(?:def|[A-Za-z_]\w*\s+)([A-Za-z_]\w*)\s*\([^)]*\)\s*[{:]?/g` run with
`exec` in a loop; call sites of a name are counted with
`/\bNAME\s*\(/g`, and the factorial test is
`/\breturn\b[\s\S]*\*\s*[A-Za-z_]\w*\s*\(/m`. -/

theorem skipSpaces_length_le (l : List Char) : (skipSpaces l).length ≤ l.length :=
  (List.dropWhile_sublist _).length_le

/-- Tail `\s*\([^)]*\)\s*[{:]?` of the function-signature regex, returning the
rest of the input after the match. -/
def finishSig (l : List Char) : Option (List Char) :=
  match skipSpaces l with
  | '(' :: r =>
    (match r.dropWhile (fun c => c ≠ ')') with
     | ')' :: r2 =>
       (match skipSpaces r2 with
        | c :: r4 => if c = '{' || c = ':' then some r4 else some (c :: r4)
        | [] => some [])
     | _ => none)
  | _ => none

theorem litStrip_length (p : List Char) :
    ∀ l r, litStrip p l = some r → r.length + p.length = l.length := by
  induction p with
  | nil => intro l r h; simp [litStrip] at h; subst h; simp
  | cons pc p ih =>
    intro l r h
    match l, h with
    | [], h => simp [litStrip] at h
    | c :: l', h =>
      rw [show litStrip (pc :: p) (c :: l') =
            if pc == c then litStrip p l' else none from rfl] at h
      split at h
      · have := ih l' r h
        simp only [List.length]
        omega
      · exact absurd h (by simp)

theorem finishSig_length_lt : ∀ l r, finishSig l = some r → r.length < l.length := by
  intro l r h
  unfold finishSig at h
  split at h
  · next r1 heq =>
    have h1 : ('(' :: r1).length ≤ l.length := by
      rw [← heq]; exact skipSpaces_length_le l
    split at h
    · next r2 heq2 =>
      have h2 : (')' :: r2).length ≤ r1.length := by
        rw [← heq2]; exact (List.dropWhile_sublist _).length_le
      split at h
      · next c r4 heq3 =>
        have h3 : (c :: r4).length ≤ r2.length := by
          rw [← heq3]; exact skipSpaces_length_le r2
        split at h <;> (cases h; simp only [List.length] at *; omega)
      · cases h; simp only [List.length] at *; omega
    · exact absurd h (by simp)
  · exact absurd h (by simp)

/-- One attempt of the function-signature regex anchored at the current
position (the caller has already checked the leading `\b`): alternative
`def` first, then `identifier\s+`; returns the captured name and the rest of
the input after the match. -/
def tryFunctionDef (s : List Char) : Option (List Char × List Char) :=
  let a1 : Option (List Char × List Char) :=
    match litStrip "def".toList s with
    | some r =>
      let name := takeIdent r
      if name.isEmpty then none
      else
        match finishSig (r.drop name.length) with
        | some rest => some (name, rest)
        | none => none
    | none => none
  match a1 with
  | some x => some x
  | none =>
    let i1 := takeIdent s
    if i1.isEmpty then none
    else
      match s.drop i1.length with
      | c :: _ =>
        if isSpaceChar c then
          let r2 := skipSpaces (s.drop i1.length)
          let name := takeIdent r2
          if name.isEmpty then none
          else
            match finishSig (r2.drop name.length) with
            | some rest => some (name, rest)
            | none => none
        else none
      | [] => none

theorem takeIdent_nonempty_length {l : List Char} (h : ¬(takeIdent l).isEmpty) :
    1 ≤ (takeIdent l).length := by
  cases hl : takeIdent l with
  | nil => rw [hl] at h; simp at h
  | cons a b => simp [List.length]

theorem tryFunctionDef_length_lt :
    ∀ s n r, tryFunctionDef s = some (n, r) → r.length < s.length := by
  intro s n r h
  unfold tryFunctionDef at h
  dsimp only at h
  split at h
  · next x heq =>
    -- alternative 1 succeeded
    cases h
    split at heq
    · next r1 heq1 =>
      have hlit := litStrip_length _ _ _ heq1
      split at heq
      · exact absurd heq (by simp)
      · split at heq
        · next rest heq2 =>
          have hfin := finishSig_length_lt _ _ heq2
          have hdrop : (r1.drop (takeIdent r1).length).length ≤ r1.length := by
            simp [List.length_drop]
          cases heq
          simp [String.toList] at hlit
          omega
        · exact absurd heq (by simp)
    · exact absurd heq (by simp)
  · -- alternative 2
    split at h
    · exact absurd h (by simp)
    · next hne =>
      split at h
      · next c rest2 heqdrop =>
        split at h
        · split at h
          · exact absurd h (by simp)
          · split at h
            · next rest heq2 =>
              have hfin := finishSig_length_lt _ _ heq2
              have h2 : (skipSpaces (s.drop (takeIdent s).length)).length ≤
                  (s.drop (takeIdent s).length).length := skipSpaces_length_le _
              have h3 : (skipSpaces (s.drop (takeIdent s).length)).length ≥
                  ((skipSpaces (s.drop (takeIdent s).length)).drop
                    (takeIdent (skipSpaces (s.drop (takeIdent s).length))).length).length := by
                simp [List.length_drop]
              have h4 : 1 ≤ (takeIdent s).length := takeIdent_nonempty_length hne
              have h5 : (s.drop (takeIdent s).length).length ≤ s.length - 1 := by
                simp [List.length_drop]; omega
              have h6 : 1 ≤ s.length := by
                cases s with
                | nil => simp [takeIdent] at h4
                | cons a b => simp [List.length]
              cases h
              omega
            · exact absurd h (by simp)
        · exact absurd h (by simp)
      · exact absurd h (by simp)

/-- The `exec` loop of the function-signature regex: scan left to right, on a
match record the captured name (a `Set` keeps first-insertion order) and
continue after the match; a match always ends in a non-word character
(`)`, whitespace, `{` or `:`), so the resumed scan sees a word boundary. -/
def collectNamesFrom : Nat → Option Char → List Char → List (List Char) →
    List (List Char)
  | 0, _, _, acc => acc
  | _, _, [], acc => acc
  | fuel + 1, prev, c :: rest, acc =>
    if prevNonWord prev then
      match tryFunctionDef (c :: rest) with
      | some (name, rest') =>
        collectNamesFrom fuel (some ')') rest'
          (if acc.contains name then acc else acc ++ [name])
      | none => collectNamesFrom fuel (some c) rest acc
    else collectNamesFrom fuel (some c) rest acc

/-- The candidate function names of `detectRecursionComplexity`, in first
occurrence order.  Every scan step consumes at least one character
(`tryFunctionDef_length_lt`), so fuel `text.length` never runs out. -/
def collectNames (text : List Char) : List (List Char) :=
  collectNamesFrom text.length none text []

/-- `\bNAME\s*\(` anchored at the current position. -/
def nameCallAt (name : List Char) (prev : Option Char) (s : List Char) : Bool :=
  prevNonWord prev &&
    match litStrip name s with
    | some r =>
      (match skipSpaces r with
       | '(' :: _ => true
       | _ => false)
    | none => false

/-- Number of `/\bNAME\s*\(/g` matches in the text (such matches cannot
overlap, so the position count equals the JS non-overlapping count). -/
def countNameCallFrom (name : List Char) : Option Char → List Char → Nat
  | _, [] => 0
  | prev, c :: rest =>
    (if nameCallAt name prev (c :: rest) then 1 else 0) +
      countNameCallFrom name (some c) rest

def countNameCall (name text : List Char) : Nat := countNameCallFrom name none text

/-- `\*\s*[A-Za-z_]\w*\s*\(` anchored at the current position. -/
def starCallAt (_ : Option Char) (s : List Char) : Bool :=
  match s with
  | '*' :: r =>
    let id := takeIdent (skipSpaces r)
    !id.isEmpty &&
      (match skipSpaces ((skipSpaces r).drop id.length) with
       | '(' :: _ => true
       | _ => false)
  | _ => false

/-- `/\breturn\b[\s\S]*\*\s*[A-Za-z_]\w*\s*\(/m.test(text)`. -/
def multReturnTest (text : List Char) : Bool :=
  scanAny
    (fun prev s => prevNonWord prev && wordMatch kwReturn s &&
      scanAny starCallAt none (s.drop 6)) none text

/-- The per-name loop body of `detectRecursionComplexity`: skip names with at
most one call-like occurrence; the first flagged name decides the class. -/
def classifyNames (text : List Char) : List (List Char) → Option String
  | [] => none
  | name :: rest =>
    if countNameCall name text ≤ 1 then classifyNames text rest
    else if multReturnTest text then some "O(n!)"
    else if 3 ≤ countNameCall name text then some "O(2^n)"
    else some "O(n)"

/-- `detectRecursionComplexity` from `analyse.ts`. -/
def detectRecursionComplexity (text : List Char) : Option String :=
  classifyNames text (collectNames text)

/-! ## Ranking and dominance (`analyse.ts`) -/

/-- The `BIG_O_RANK` table. -/
def BIG_O_RANK : List (String × Int) :=
  [("O(?)", -1), ("O(1)", 0), ("O(log n)", 1), ("O(n)", 2), ("O(n log n)", 3),
   ("O(n^2)", 4), ("O(n^3)", 5), ("O(2^n)", 6), ("O(n!)", 7)]

/-- `rankBigO`: table lookup with default −1. -/
def rankBigO (bigO : String) : Int := (BIG_O_RANK.lookup bigO).getD (-1)

/-- A complexity candidate: canonical class label and advisory confidence. -/
structure Complexity where
  bigO : String
  confidence : Rat
deriving DecidableEq, Repr

/-- One step of the `reduce` in `pickDominant`:
`rankBigO(cur.bigO) > rankBigO(best.bigO) ? cur : best`. -/
def pickStep (best cur : Complexity) : Complexity :=
  if rankBigO best.bigO < rankBigO cur.bigO then cur else best

/-- `pickDominant` from `analyse.ts`: drop unknown-class candidates when a
known-class one exists, then a stable fold keeping the highest rank (the
`reduce` seeds with `list[0] ?? {bigO:"O(?)", confidence:0.25}` and then folds
over the whole list). -/
def pickDominant (candidates : List Complexity) : Complexity :=
  let known := candidates.filter fun c => c.bigO != "O(?)"
  let list := if known.isEmpty then candidates else known
  list.foldl pickStep (list.headD ⟨"O(?)", 0.25⟩)

/-- `canonicalLoopComplexity` from `analyse.ts`. -/
def canonicalLoopComplexity (maxDepth : Nat) (hasLogLoop : Bool) (loopCount : Nat) :
    String :=
  if loopCount = 0 then "O(1)"
  else if 3 ≤ maxDepth then "O(n^3)"
  else if maxDepth = 2 then "O(n^2)"
  else if hasLogLoop then "O(log n)"
  else "O(n)"

/-! ## The analysis result type (`types.ts`)

`types.ts` also declares a `space` field, but the engine's `analyse` never
produces one; the model records exactly the fields `analyse` returns. -/

structure LoopsInfo where
  count : Nat
  maxDepth : Nat
deriving DecidableEq, Repr

structure AnalysisResult where
  loops : LoopsInfo
  tags : List String
  time : Complexity
  why : List String
deriving DecidableEq, Repr

/-! ## The lexical scan and `analyse` (`analyse.ts`)

The loop regexes in `PROFILES` are `/g` regexes shared between calls, so their
`lastIndex` fields are genuine cross-call state.  `safeTest` resets
`lastIndex` to 0 before testing; `regexTestG` models `test()` on a `/g` regex
faithfully (search from `lastIndex`, update it on success, reset on failure). -/

/-- Scan for a `\bw\b` match, returning the index just after the match. -/
def findWordEndAux (w : List Char) : Option Char → List Char → Nat → Option Nat
  | _, [], _ => none
  | prev, c :: rest, i =>
    if prevNonWord prev && wordMatch w (c :: rest) then some (i + w.length)
    else findWordEndAux w (some c) rest (i + 1)

/-- JS `test()` on a `/g` word regex: search from `lastIndex` (the word
boundary looks at the character before it); on success the new `lastIndex` is
the match end, on failure it is reset to 0. -/
def regexTestG (w : List Char) (s : List Char) (lastIndex : Nat) : Bool × Nat :=
  let r :=
    if lastIndex = 0 then findWordEndAux w none s 0
    else
      match s.drop (lastIndex - 1) with
      | [] => none
      | p :: tail => findWordEndAux w (some p) tail lastIndex
  match r with
  | some e => (true, e)
  | none => (false, 0)

/-- `safeTest` from `analyse.ts`: set `re.lastIndex = 0`, then `re.test(s)`;
the incoming `lastIndex` is overwritten. -/
def safeTest (w : List Char) (s : List Char) (_lastIndex : Nat) : Bool × Nat :=
  regexTestG w s 0

/-- The boolean result of `safeTest`, which is independent of the stored
`lastIndex`. -/
def safeTestB (w : List Char) (s : List Char) : Bool := (safeTest w s 0).1

/-- A `LoopRecord`: the scope level a loop was opened at and its bound text. -/
structure StackEntry where
  level : Nat
  bound : List Char
deriving DecidableEq, Repr

/-- The running state of the loop-nesting tracker. -/
structure ScanState where
  braceDepth : Nat
  stack : List StackEntry
  maxDepth : Nat
  hasLogLoop : Bool
deriving Repr

def initialScanState : ScanState := ⟨0, [], 0, false⟩

/-- The state update of one brace-scan line (for a non-empty trimmed line
`t`, with the loop test's result passed in): closing braces lower the depth
and pop stale scopes before loop detection; opening braces raise the depth
after. -/
def braceLineCore (lang : SLang) (st : ScanState) (t : List Char) (isLoop : Bool) :
    ScanState :=
  let bd := st.braceDepth - t.count '}'
  let stack1 := st.stack.dropWhile fun e => bd < e.level
  let st1 :=
    if isLoop then
      let bound := (extractLoopBound t lang).getD ['n']
      let stack2 : List StackEntry := ⟨bd + 1, bound⟩ :: stack1
      { braceDepth := bd
        stack := stack2
        maxDepth := max st.maxDepth stack2.length
        hasLogLoop := st.hasLogLoop || detectLogLoop t lang ||
          (classifyBound bound == BoundClass.logN) }
    else { st with braceDepth := bd, stack := stack1 }
  { st1 with braceDepth := st1.braceDepth + t.count '{' }

/-- One line of the brace-delimited scan. -/
def braceLineStep (lang : SLang) (st : ScanState) (line : List Char) : ScanState :=
  let t := trimChars line
  if t.isEmpty then st
  else braceLineCore lang st t ((PROFILES lang).loopWords.any fun w => safeTestB w t)

/-- The state update of one indentation-scan line: scopes at a level ≥ the
current indentation are popped before loop detection. -/
def indentLineCore (lang : SLang) (st : ScanState) (line t : List Char)
    (isLoop : Bool) : ScanState :=
  let indent := (line.takeWhile isSpaceChar).length
  let stack1 := st.stack.dropWhile fun e => indent ≤ e.level
  if isLoop then
    let bound := (extractLoopBound t lang).getD ['n']
    let stack2 : List StackEntry := ⟨indent, bound⟩ :: stack1
    { st with
        stack := stack2
        maxDepth := max st.maxDepth stack2.length
        hasLogLoop := st.hasLogLoop || detectLogLoop t lang ||
          (classifyBound bound == BoundClass.logN) }
  else { st with stack := stack1 }

/-- One line of the indentation-delimited scan. -/
def indentLineStep (lang : SLang) (st : ScanState) (line : List Char) : ScanState :=
  let t := trimChars line
  if t.isEmpty then st
  else indentLineCore lang st line t ((PROFILES lang).loopWords.any fun w => safeTestB w t)

/-- The nesting-tracker pass of `analyse` over the split lines. -/
def analyseScan (lang : SLang) (lines : List (List Char)) : ScanState :=
  if (PROFILES lang).usesBraces then lines.foldl (braceLineStep lang) initialScanState
  else lines.foldl (indentLineStep lang) initialScanState

/-- The candidate pool `analyse` hands to `pickDominant`, in contribution
order: sort, recursion, loop (or the constant fallback), sort+loop combo. -/
def timeCandidatesOf (hasSort : Bool) (recursionBigO : Option String)
    (loopBigO : String) (loopCount : Nat) : List Complexity :=
  (if hasSort then [⟨"O(n log n)", 0.65⟩] else []) ++
    (match recursionBigO with
     | some r => [⟨r, if r = "O(n)" then 0.52 else 0.76⟩]
     | none => []) ++
    (if loopCount ≠ 0 then [⟨loopBigO, 0.62⟩] else [⟨"O(1)", 0.3⟩]) ++
    (if hasSort && loopCount != 0 then [⟨"O(n log n)", 0.7⟩] else [])

/-- Everything `analyse` computes after the nesting scan (tags, rationale
trail, candidate pool, dominance resolution). -/
def analyseAssemble (lang : SLang) (text : List Char) (st : ScanState) :
    AnalysisResult :=
  let profile := PROFILES lang
  let loopCount := (profile.loopWords.map fun w => countWordFrom w none text).sum
  let hasLogLoop := st.hasLogLoop || detectGlobalLogProgression text lang
  let hasSort := profile.sortTests.any fun f => scanAny f none text
  let recursionBigO := detectRecursionComplexity text
  let loopBigO := canonicalLoopComplexity st.maxDepth hasLogLoop loopCount
  let sortWhy : List String :=
    if hasSort then ["Detected sorting operation; normalized to canonical O(n log n)."]
    else []
  let recWhy : List String :=
    match recursionBigO with
    | some r => ["Detected recursion pattern mapped to canonical " ++ r ++ "."]
    | none => []
  let loopWhy : List String :=
    if loopCount ≠ 0 then
      ["Detected " ++ toString loopCount ++ " loop(s) with depth " ++
        toString st.maxDepth ++ ", mapped to canonical " ++ loopBigO ++ "."]
    else ["No loop structures detected."]
  let comboWhy : List String :=
    if hasSort && loopCount != 0 then
      ["Sort + loop pattern retained as canonical O(n log n). (Worst-case composition may be higher.)"]
    else []
  { loops := ⟨loopCount, st.maxDepth⟩
    tags := (if hasSort then ["sort"] else []) ++
      (if recursionBigO.isSome then ["recursion"] else [])
    time := pickDominant (timeCandidatesOf hasSort recursionBigO loopBigO loopCount)
    why := sortWhy ++ recWhy ++ loopWhy ++ comboWhy }

/-- `analyse` from `analyse.ts`, after the `"auto"` tag has been resolved. -/
def analyseResolved (code : List Char) (lang : SLang) : AnalysisResult :=
  let text := (PROFILES lang).removeComments code
  analyseAssemble lang text (analyseScan lang (splitOnNl text))

/-- `analyse(code, chosenLang)` from `analyse.ts` (the exported entry point). -/
def analyse (code : String) (chosenLang : Lang) : AnalysisResult :=
  analyseResolved code.toList (resolveLang chosenLang)

/-! ## The explicit-state variant of `analyse`

The loop regexes of a profile are shared `/g` regex objects, so their
`lastIndex` fields survive between calls to `analyse`; every use either goes
through `safeTest` (which zeroes `lastIndex` first) or through
`String.match` (which scans the whole string and leaves `lastIndex` at 0).
`analyseST` threads that state explicitly: the `List Nat` is the `lastIndex`
of each loop regex of the active profile. -/

/-- `.some(re => safeTest(re, t))` over the shared loop regexes, threading
each regex's `lastIndex` and short-circuiting like JS `some`. -/
def someSafeTest (ws : List (List Char)) (s : List Char) (σ : List Nat) :
    Bool × List Nat :=
  match ws, σ with
  | [], _ => (false, σ)
  | w :: ws', li :: σ' =>
    let r := safeTest w s li
    if r.1 then (true, r.2 :: σ')
    else
      let rest := someSafeTest ws' s σ'
      (rest.1, r.2 :: rest.2)
  | w :: ws', [] =>
    let r := safeTest w s 0
    if r.1 then (true, [r.2])
    else
      let rest := someSafeTest ws' s []
      (rest.1, r.2 :: rest.2)

/-- One line of the brace scan with explicit regex state. -/
def braceLineStepST (lang : SLang) (acc : ScanState × List Nat) (line : List Char) :
    ScanState × List Nat :=
  let t := trimChars line
  if t.isEmpty then acc
  else
    let r := someSafeTest (PROFILES lang).loopWords t acc.2
    (braceLineCore lang acc.1 t r.1, r.2)

/-- One line of the indentation scan with explicit regex state. -/
def indentLineStepST (lang : SLang) (acc : ScanState × List Nat) (line : List Char) :
    ScanState × List Nat :=
  let t := trimChars line
  if t.isEmpty then acc
  else
    let r := someSafeTest (PROFILES lang).loopWords t acc.2
    (indentLineCore lang acc.1 line t r.1, r.2)

/-- `analyse` with the shared regexes' `lastIndex` state made explicit: takes
the state left over from earlier calls, returns the result together with the
final state.  `countMatches` (JS `String.match` on a `/g` regex) scans the
whole string regardless of `lastIndex` and resets it to 0, which is why the
scan starts from the all-zero state. -/
def analyseST (code : String) (chosenLang : Lang) (σ : List Nat) :
    AnalysisResult × List Nat :=
  let lang := resolveLang chosenLang
  let text := (PROFILES lang).removeComments code.toList
  let σ0 : List Nat := (PROFILES lang).loopWords.map fun _ => 0
  let scanned :=
    if (PROFILES lang).usesBraces then
      (splitOnNl text).foldl (braceLineStepST lang) (initialScanState, σ0)
    else (splitOnNl text).foldl (indentLineStepST lang) (initialScanState, σ0)
  (analyseAssemble lang text scanned.1, scanned.2)

/-! ## The CST adapter layer (`ir.ts`)

A `TreeSitterNode` from the external parser is a typed node with source text
and children; `buildNormalizedIr` walks it depth-first, incrementing the
nesting depth on loop nodes. -/

/-- A concrete-syntax-tree node as delivered by the external parser. -/
inductive TSNode where
  | mk (ntype : String) (ntext : List Char) (children : List TSNode)

def TSNode.ntype : TSNode → String
  | .mk t _ _ => t

def TSNode.ntext : TSNode → List Char
  | .mk _ t _ => t

def TSNode.children : TSNode → List TSNode
  | .mk _ _ c => c

/-- Case-sensitive `\bKW\s*\(` test (the `ir.ts` regexes have no `/i` flag). -/
def wordParenCsAt (w : List Char) (prev : Option Char) (s : List Char) : Bool :=
  prevNonWord prev &&
    match litStrip w s with
    | some r =>
      (match skipSpaces r with
       | '(' :: _ => true
       | _ => false)
    | none => false

/-- Case-sensitive `\.KW\s*\(` test. -/
def dotWordParenCsAt (w : List Char) (_ : Option Char) (s : List Char) : Bool :=
  match s with
  | '.' :: r =>
    (match litStrip w r with
     | some r2 =>
       (match skipSpaces r2 with
        | '(' :: _ => true
        | _ => false)
     | none => false)
  | _ => false

/-- Case-sensitive `\bW1\.W2\s*\(` test. -/
def wordDotWordParenCsAt (w1 w2 : List Char) (prev : Option Char) (s : List Char) :
    Bool :=
  prevNonWord prev &&
    match litStrip w1 s with
    | some ('.' :: r) =>
      (match litStrip w2 r with
       | some r2 =>
         (match skipSpaces r2 with
          | '(' :: _ => true
          | _ => false)
       | none => false)
    | _ => false

/-- Case-sensitive `\bKW\.` test (e.g. `\bheapq\.`). -/
def wordDotAt (w : List Char) (prev : Option Char) (s : List Char) : Bool :=
  prevNonWord prev &&
    match litStrip w s with
    | some ('.' :: _) => true
    | _ => false

/-- Case-sensitive `\bKW\b` test (e.g. `\bHashMap\b`). -/
def wordBAt (w : List Char) (prev : Option Char) (s : List Char) : Bool :=
  prevNonWord prev && wordMatch w s

/-- The per-language adapter table from `ir.ts`. -/
structure LanguageAdapter where
  loopNodes : List (String × String)
  functionNodeTypes : List String
  sortCallTests : List (Option Char → List Char → Bool)
  libraryOpTests : List (Option Char → List Char → Bool)

/-- `ADAPTERS` from `ir.ts`. -/
def ADAPTERS : SLang → LanguageAdapter
  | .python =>
    { loopNodes := [("for_statement", "for"), ("while_statement", "while")]
      functionNodeTypes := ["function_definition"]
      sortCallTests := [wordParenCsAt "sorted".toList, dotWordParenCsAt "sort".toList]
      libraryOpTests := [wordParenCsAt "set".toList, wordParenCsAt "dict".toList,
        wordDotAt "heapq".toList, wordDotAt "bisect".toList] }
  | .java =>
    { loopNodes := [("for_statement", "for"), ("enhanced_for_statement", "for"),
        ("while_statement", "while"), ("do_statement", "do")]
      functionNodeTypes := ["method_declaration"]
      sortCallTests := [wordDotWordParenCsAt "Arrays".toList "sort".toList,
        wordDotWordParenCsAt "Collections".toList "sort".toList,
        dotWordParenCsAt "sort".toList]
      libraryOpTests := [wordBAt "HashMap".toList, wordBAt "HashSet".toList,
        wordBAt "PriorityQueue".toList, wordBAt "Deque".toList] }
  | .c =>
    { loopNodes := [("for_statement", "for"), ("while_statement", "while"),
        ("do_statement", "do")]
      functionNodeTypes := ["function_definition"]
      sortCallTests := [wordParenCsAt "qsort".toList]
      libraryOpTests := [wordParenCsAt "bsearch".toList, wordParenCsAt "malloc".toList,
        wordParenCsAt "calloc".toList, wordParenCsAt "realloc".toList] }

/-- The operator alternation of `boundHintFromText`
(`(\*=|\/=|>>=|<<=|\/\/=)`). -/
def irLogOps : List (List Char) := ["*=", "/=", ">>=", "<<=", "//="].map String.toList

/-- `\b\d+\b` anchored at one position: a maximal digit run between word
boundaries. -/
def numberWordAt (prev : Option Char) (s : List Char) : Bool :=
  prevNonWord prev &&
    match s with
    | c :: _ =>
      isDigitChar c &&
        (match s.dropWhile isDigitChar with
         | [] => true
         | d :: _ => !isWordChar d)
    | [] => false

/-- `boundHintFromText` from `ir.ts`. -/
def boundHintFromText (text : List Char) : BoundClass :=
  if scanAny (opDigitsAt irLogOps) none text then .logN
  else if scanAny
      (fun prev s => prevNonWord prev &&
        (wordMatchCI "log".toList s || wordMatchCI "ln".toList s)) none text then .logN
  else if scanAny numberWordAt none text && !(text.any isIdentStartChar) then .constant
  else .linearN

/-- `/\bdef\s+([A-Za-z_]\w*)\s*\(/` anchored at one position. -/
def pyDefNameAt (prev : Option Char) (s : List Char) : Option (List Char) :=
  if prevNonWord prev then
    match litStrip "def".toList s with
    | some (c :: r) =>
      if isSpaceChar c then
        let r2 := skipSpaces (c :: r)
        let name := takeIdent r2
        if name.isEmpty then none
        else
          match skipSpaces (r2.drop name.length) with
          | '(' :: _ => some name
          | _ => none
      else none
    | _ => none
  else none

/-- `/[A-Za-z_]\w*\s+([A-Za-z_]\w*)\s*\(/` anchored at one position (the C
function-name pattern; it carries no word boundary). -/
def cFnNameAt (_ : Option Char) (s : List Char) : Option (List Char) :=
  let i1 := takeIdent s
  if i1.isEmpty then none
  else
    match s.drop i1.length with
    | c :: _ =>
      if isSpaceChar c then
        let r2 := skipSpaces (s.drop i1.length)
        let name := takeIdent r2
        if name.isEmpty then none
        else
          match skipSpaces (r2.drop name.length) with
          | '(' :: _ => some name
          | _ => none
      else none
    | [] => none

def javaModifierWords : List (List Char) :=
  ["public", "private", "protected", "static", "final", "synchronized",
   "native", "abstract"].map String.toList

/-- Greedy munch of `(?:public|private|...|abstract|\s)+`: repeatedly consume
a modifier keyword or one whitespace character. -/
def javaModifierMunch : List Char → Nat → List Char
  | s, 0 => s
  | s, fuel + 1 =>
    match javaModifierWords.firstM (fun w => litStrip w s) with
    | some r => javaModifierMunch r fuel
    | none =>
      match s with
      | c :: r => if isSpaceChar c then javaModifierMunch r fuel else s
      | [] => s

/-- The Java method-name pattern
`(?:public|...|abstract|\s)+\s*[\w<>\[\]]+\s+([A-Za-z_]\w*)\s*\(`
anchored at one position (greedy munch of modifiers and whitespace, then a
type token, then the captured name). -/
def javaFnNameAt (_ : Option Char) (s : List Char) : Option (List Char) :=
  let afterMods := javaModifierMunch s s.length
  if afterMods.length = s.length then none  -- the `+` needs at least one unit
  else
    let r1 := skipSpaces afterMods
    let isTypeChar : Char → Bool := fun c =>
      isWordChar c || c = '<' || c = '>' || c = '[' || c = ']'
    let ty := r1.takeWhile isTypeChar
    if ty.isEmpty then none
    else
      match r1.drop ty.length with
      | c :: _ =>
        if isSpaceChar c then
          let r2 := skipSpaces (r1.drop ty.length)
          let name := takeIdent r2
          if name.isEmpty then none
          else
            match skipSpaces (r2.drop name.length) with
            | '(' :: _ => some name
            | _ => none
        else none
      | [] => none

/-- `extractFunctionName` from `ir.ts` (`m?.[1] ?? ""`: empty on no match). -/
def extractFunctionName (text : List Char) (lang : SLang) : List Char :=
  match lang with
  | .python => (scanFirst pyDefNameAt none text).getD []
  | .java => (scanFirst javaFnNameAt none text).getD []
  | .c => (scanFirst cFnNameAt none text).getD []

/-- `\s*-\s*1` at the head of the input. -/
def dashOne (l : List Char) : Bool :=
  match skipSpaces l with
  | '-' :: r =>
    (match skipSpaces r with
     | d :: _ => d = '1'
     | [] => false)
  | _ => false

/-- Continuation of the factorial-like pattern after its `*`:
`\s*\w*\s*\(?\s*\b\w+\s*-\s*1` (the optional `\w*` either takes the maximal
word run or is dropped entirely; intermediate splits cannot satisfy the inner
word boundary). -/
def factTail (r2 : List Char) : Bool :=
  let r3 := skipSpaces r2
  let m := r3.takeWhile isWordChar
  let r4 := r3.drop m.length
  let r5 := skipSpaces r4
  let paren := match r5 with
    | '(' :: _ => true
    | _ => false
  let r6 := if paren then r5.drop 1 else r5
  let r7 := skipSpaces r6
  let sepOk := m.isEmpty || paren || r5.length < r4.length || r7.length < r6.length
  let branchX :=
    sepOk &&
      (match r7 with
       | c :: _ => isWordChar c && dashOne (r7.drop (r7.takeWhile isWordChar).length)
       | [] => false)
  let branchY := !m.isEmpty && dashOne r4
  branchX || branchY

/-- `\b\w+\s*\*\s*\w*\s*\(?\s*\b\w+\s*-\s*1\s*\)?` anchored at one position. -/
def factAAt (prev : Option Char) (s : List Char) : Bool :=
  prevNonWord prev &&
    match s with
    | c :: _ =>
      isWordChar c &&
        (match skipSpaces (s.dropWhile isWordChar) with
         | '*' :: r2 => factTail r2
         | _ => false)
    | [] => false

/-- The `ComplexityHint` union of `ir.ts`. -/
inductive ComplexityHint where
  | linear | exponential | factorial
deriving DecidableEq, Repr

/-- `RecursionSignal` from `ir.ts`. -/
structure RecursionSignal where
  functionName : List Char
  direct : Bool
  selfCallCount : Nat
  complexityHint : ComplexityHint
deriving DecidableEq, Repr

/-- One loop observation of the normalized IR (`boundHint` reuses the
`"constant" | "log n" | "n"` classes of `classifyBound`). -/
structure LoopObs where
  kind : String
  depth : Nat
  boundHint : BoundClass
deriving DecidableEq, Repr

/-- `NormalizedIr` from `ir.ts`. -/
structure NormalizedIr where
  lang : SLang
  loops : List LoopObs
  recursion : List RecursionSignal
  sortingCalls : List (List Char)
  libraryOps : List (List Char)
deriving Repr

/-- `getRecursionSignal` from `ir.ts`. -/
def getRecursionSignal (functionText functionName : List Char) :
    Option RecursionSignal :=
  if functionName.isEmpty then none
  else
    let calls := countNameCall functionName functionText
    if calls ≤ 1 then none
    else
      let branchCalls := calls - 1
      let factorialLike :=
        scanAny factAAt none functionText || multReturnTest functionText
      let complexityHint : ComplexityHint :=
        if factorialLike then .factorial
        else if 2 ≤ branchCalls then .exponential
        else .linear
      some ⟨functionName, true, branchCalls, complexityHint⟩

/-- The working accumulator of the `buildNormalizedIr` walk (the JS `Set`s
are insertion-ordered deduplicating lists). -/
structure IrAcc where
  loops : List LoopObs
  sortingCalls : List (List Char)
  libraryOps : List (List Char)
  recursion : List RecursionSignal

/-- JS `Set.add`: append if not already present. -/
def setAdd (l : List (List Char)) (x : List Char) : List (List Char) :=
  if l.contains x then l else l ++ [x]

mutual

/-- The `walk` closure of `buildNormalizedIr`: record this node's loop /
sort / library / recursion observations, then visit the children with the
depth incremented below a loop node. -/
def walkNode (a : LanguageAdapter) (lang : SLang) : TSNode → Nat → IrAcc → IrAcc
  | .mk ty tx ch, depth, acc =>
    let loopKind := a.loopNodes.lookup ty
    let nextDepth := if loopKind.isSome then depth + 1 else depth
    let acc1 :=
      match loopKind with
      | some k => { acc with loops := acc.loops ++ [⟨k, nextDepth, boundHintFromText tx⟩] }
      | none => acc
    let acc2 := a.sortCallTests.foldl
      (fun ac f =>
        if scanAny f none tx then
          { ac with sortingCalls := setAdd ac.sortingCalls ((trimChars tx).take 120) }
        else ac) acc1
    let acc3 := a.libraryOpTests.foldl
      (fun ac f =>
        if scanAny f none tx then
          { ac with libraryOps := setAdd ac.libraryOps ((trimChars tx).take 120) }
        else ac) acc2
    let acc4 :=
      if a.functionNodeTypes.contains ty then
        match getRecursionSignal tx (extractFunctionName tx lang) with
        | some sig => { acc3 with recursion := acc3.recursion ++ [sig] }
        | none => acc3
      else acc3
    walkChildren a lang ch nextDepth acc4

/-- Left-to-right traversal of a node's children. -/
def walkChildren (a : LanguageAdapter) (lang : SLang) :
    List TSNode → Nat → IrAcc → IrAcc
  | [], _, acc => acc
  | c :: cs, depth, acc => walkChildren a lang cs depth (walkNode a lang c depth acc)

end

/-- `buildNormalizedIr` from `ir.ts`. -/
def buildNormalizedIr (rootNode : TSNode) (lang : SLang) : NormalizedIr :=
  let acc := walkNode (ADAPTERS lang) lang rootNode 0 ⟨[], [], [], []⟩
  { lang := lang
    loops := acc.loops
    recursion := acc.recursion
    sortingCalls := acc.sortingCalls
    libraryOps := acc.libraryOps }

/-! ## The CST analysis entry point and fallback controller (`treeSitter.ts`)

The external parser (module fetch, grammar load, parse) is modelled as an
input of type `Except CstFailure TSNode`: a successfully parsed tree for the
input, or the failure that the `try`/`catch` recovers from.  The function is
total — no failure is ever propagated to the caller. -/

/-- The failure modes recovered by the fallback controller. -/
inductive CstFailure where
  | moduleUnavailable | grammarLoadFailure | parseError
deriving DecidableEq, Repr

/-- The candidate pool of the CST path, in contribution order, with the
final empty-pool guard. -/
def timeCandidatesCstOf (emptyIr loopsEmpty hasSort : Bool)
    (recursionBigO : Option String) (loopBigO : String) : List Complexity :=
  let cands :=
    (if emptyIr then [⟨"O(1)", 0.35⟩] else []) ++
      (if !loopsEmpty then [⟨loopBigO, 0.72⟩] else []) ++
      (if hasSort then [⟨"O(n log n)", 0.7⟩] else []) ++
      (if hasSort && !loopsEmpty then [⟨"O(n log n)", 0.76⟩] else []) ++
      (match recursionBigO with
       | some r => [⟨r, if r = "O(n)" then 0.52 else 0.78⟩]
       | none => [])
  if cands.isEmpty then [⟨"O(1)", 0.25⟩] else cands

/-- `pickDominant` from `treeSitter.ts`: `reduce` seeded with
`candidates[0]` over the whole list; on an empty pool the JS value is
`undefined`, modelled as `none`. -/
def pickDominantCst (candidates : List Complexity) : Option Complexity :=
  match candidates with
  | [] => none
  | c :: rest => some ((c :: rest).foldl pickStep c)

/-- `canonicalLoopComplexity` from `treeSitter.ts` (depth only). -/
def canonicalLoopComplexityCst (depth : Nat) (hasLogLoop : Bool) : String :=
  if depth = 0 then "O(1)"
  else if 3 ≤ depth then "O(n^3)"
  else if depth = 2 then "O(n^2)"
  else if hasLogLoop then "O(log n)"
  else "O(n)"

/-- `recursionComplexity` from `treeSitter.ts`. -/
def recursionComplexityCst (recursion : List RecursionSignal) : Option String :=
  if recursion.any (·.complexityHint == ComplexityHint.factorial) then some "O(n!)"
  else if recursion.any (·.complexityHint == ComplexityHint.exponential) then
    some "O(2^n)"
  else if !recursion.isEmpty then some "O(n)"
  else none

/-- The rationale entry prepended when the CST path fails. -/
def fallbackWhy : String := "Tree-sitter unavailable; fell back to heuristic analysis."

/-- `analyseWithTreeSitter` from `treeSitter.ts`.  On `ok root` the CST path
runs on the parse tree of the input; on any failure the lexical `analyse` runs
for the same input and resolved language, with one disclosing rationale entry
prepended. -/
def analyseWithTreeSitter (outcome : Except CstFailure TSNode) (code : String)
    (chosenLang : Lang) : AnalysisResult :=
  let lang := resolveLang chosenLang
  match outcome with
  | .ok root =>
    let ir := buildNormalizedIr root lang
    let maxDepth := ir.loops.foldl (fun best l => max best l.depth) 0
    let hasLogLoop := ir.loops.any (·.boundHint == BoundClass.logN)
    let hasSort := !ir.sortingCalls.isEmpty
    let recursionBigO := recursionComplexityCst ir.recursion
    let loopBigO := canonicalLoopComplexityCst maxDepth hasLogLoop
    let emptyIr := ir.loops.isEmpty && !hasSort && recursionBigO.isNone
    let why0 : List String :=
      if emptyIr then ["No loops, recursion, or sort operations detected in IR."] else []
    let whyLoop : List String :=
      if !ir.loops.isEmpty then
        ["Detected " ++ toString ir.loops.length ++ " loop(s) with max depth " ++
          toString maxDepth ++ ", mapped to " ++ loopBigO ++ "."]
      else []
    let whySort : List String :=
      if hasSort then
        ["Detected " ++ toString ir.sortingCalls.length ++
          " sorting call(s), suggesting O(n log n)."]
      else []
    let whyCombo : List String :=
      if hasSort && !ir.loops.isEmpty then
        ["Sort + loop combination preserved as canonical O(n log n). (Worst-case composition may exceed this heuristic.)"]
      else []
    let whyRec : List String :=
      match recursionBigO with
      | some r => ["Detected recursion pattern mapped to canonical " ++ r ++ "."]
      | none => []
    let whyLib : List String :=
      if !ir.libraryOps.isEmpty then
        ["Detected " ++ toString ir.libraryOps.length ++
          " library operation pattern(s): " ++
          String.intercalate "; " ((ir.libraryOps.take 2).map String.mk) ++ "."]
      else []
    let tags : List String :=
      (if hasSort then ["sort"] else []) ++
        (if recursionBigO.isSome then ["recursion"] else []) ++
        (if !ir.libraryOps.isEmpty then ["library-ops"] else [])
    let timeCandidates :=
      timeCandidatesCstOf emptyIr ir.loops.isEmpty hasSort recursionBigO loopBigO
    { loops := ⟨ir.loops.length, maxDepth⟩
      tags := tags
      -- the candidate pool is never empty here, so the default is unreachable
      time := (pickDominantCst timeCandidates).getD ⟨"O(?)", 0.25⟩
      why := "Used Tree-sitter CST parsing with language adapters and normalized IR extraction." ::
        (why0 ++ whyLoop ++ whySort ++ whyCombo ++ whyRec ++ whyLib) }
  | .error _ =>
    let fallback := analyseResolved code.toList lang
    { fallback with why := fallbackWhy :: fallback.why }

/-! ## Properties of the dominance resolver -/

/-- The fixed set of canonical labels (the eight classes plus the unknown
placeholder). -/
def validBigOLabels : List String :=
  ["O(1)", "O(log n)", "O(n)", "O(n log n)", "O(n^2)", "O(n^3)", "O(2^n)", "O(n!)",
   "O(?)"]

theorem rankBigO_ge_neg_one (s : String) : -1 ≤ rankBigO s := by
  unfold rankBigO BIG_O_RANK
  simp only [List.lookup]
  repeat' split
  all_goals simp_all

theorem rankBigO_nonneg_of_valid {s : String} (hv : s ∈ validBigOLabels)
    (hne : s ≠ "O(?)") : 0 ≤ rankBigO s := by
  simp only [validBigOLabels, List.mem_cons, List.not_mem_nil, or_false] at hv
  rcases hv with rfl | rfl | rfl | rfl | rfl | rfl | rfl | rfl | rfl
  all_goals first
    | decide
    | exact absurd rfl hne

theorem rankBigO_unknown : rankBigO "O(?)" = -1 := by decide

/-- The `reduce` of `pickDominant`: the fold result dominates every element
and the seed, and it is either the seed itself or the first element of the
list strictly exceeding everything before it (and the seed). -/
theorem foldl_pickStep_spec :
    ∀ (l : List Complexity) (init : Complexity),
      (∀ c ∈ l, rankBigO c.bigO ≤ rankBigO (l.foldl pickStep init).bigO) ∧
      rankBigO init.bigO ≤ rankBigO (l.foldl pickStep init).bigO ∧
      (l.foldl pickStep init = init ∨
        ∃ l1 l2, l = l1 ++ (l.foldl pickStep init) :: l2 ∧
          rankBigO init.bigO < rankBigO (l.foldl pickStep init).bigO ∧
          ∀ c ∈ l1, rankBigO c.bigO < rankBigO (l.foldl pickStep init).bigO) := by
  intro l
  induction l with
  | nil => intro init; exact ⟨by simp, le_refl _, Or.inl rfl⟩
  | cons c t ih =>
    intro init
    have hstep : (c :: t).foldl pickStep init = t.foldl pickStep (pickStep init c) := rfl
    by_cases hc : rankBigO init.bigO < rankBigO c.bigO
    · -- the step keeps `c`
      have hpick : pickStep init c = c := by simp [pickStep, hc]
      obtain ⟨ih1, ih2, ih3⟩ := ih c
      rw [hstep, hpick]
      set r := t.foldl pickStep c with hr
      refine ⟨?_, ?_, ?_⟩
      · intro x hx
        rcases List.mem_cons.mp hx with rfl | hx
        · exact ih2
        · exact ih1 x hx
      · exact le_of_lt (lt_of_lt_of_le hc ih2)
      · rcases ih3 with heq | ⟨l1, l2, hsplit, hlt, hall⟩
        · refine Or.inr ⟨[], t, by simp [heq], by rw [heq]; exact hc, by simp⟩
        · refine Or.inr ⟨c :: l1, l2, by rw [hsplit, List.cons_append],
            lt_trans hc hlt, ?_⟩
          intro x hx
          rcases List.mem_cons.mp hx with rfl | hx
          · exact hlt
          · exact hall x hx
    · -- the step keeps the seed
      have hpick : pickStep init c = init := by simp [pickStep, hc]
      obtain ⟨ih1, ih2, ih3⟩ := ih init
      rw [hstep, hpick]
      set r := t.foldl pickStep init with hr
      refine ⟨?_, ih2, ?_⟩
      · intro x hx
        rcases List.mem_cons.mp hx with rfl | hx
        · exact le_trans (not_lt.mp hc) ih2
        · exact ih1 x hx
      · rcases ih3 with heq | ⟨l1, l2, hsplit, hlt, hall⟩
        · exact Or.inl heq
        · refine Or.inr ⟨c :: l1, l2, by rw [hsplit, List.cons_append], hlt, ?_⟩
          intro x hx
          rcases List.mem_cons.mp hx with rfl | hx
          · exact lt_of_le_of_lt (not_lt.mp hc) hlt
          · exact hall x hx

/-- If a list splits around an element, that element is a member. -/
theorem mem_of_eq_append_cons {α : Type} {l l1 l2 : List α} {x : α}
    (h : l = l1 ++ x :: l2) : x ∈ l := by
  subst h
  exact List.mem_append_right l1 (List.mem_cons_self _ _)

/-- The fold result is the seed or a member of the list. -/
theorem foldl_pickStep_mem (l : List Complexity) (init : Complexity) :
    l.foldl pickStep init = init ∨ l.foldl pickStep init ∈ l := by
  rcases (foldl_pickStep_spec l init).2.2 with h | ⟨l1, l2, hsplit, _, _⟩
  · exact Or.inl h
  · exact Or.inr (mem_of_eq_append_cons hsplit)

/-- A split of the filtered list lifts to a split of the original list. -/
theorem filter_split (p : Complexity → Bool) :
    ∀ (cs l1k l2k : List Complexity) (r : Complexity),
      cs.filter p = l1k ++ r :: l2k →
      ∃ l1 l2, cs = l1 ++ r :: l2 ∧ l1.filter p = l1k := by
  intro cs
  induction cs with
  | nil =>
    intro l1k l2k r h
    simp at h
  | cons c t ih =>
    intro l1k l2k r h
    by_cases hp : p c
    · rw [List.filter_cons_of_pos hp] at h
      cases l1k with
      | nil =>
        simp at h
        exact ⟨[], t, by simp [h.1], by simp⟩
      | cons x l1k' =>
        have hx : x = c := by
          have := congrArg (fun l => l.headD c) h
          simpa using this.symm
        have htail : t.filter p = l1k' ++ r :: l2k := by
          have := congrArg List.tail h
          simpa using this
        obtain ⟨l1, l2, hsplit, hfilter⟩ := ih l1k' l2k r htail
        exact ⟨c :: l1, l2, by rw [hsplit]; rfl,
          by rw [List.filter_cons_of_pos hp, hfilter, hx]⟩
    · rw [List.filter_cons_of_neg (by simpa using hp)] at h
      obtain ⟨l1, l2, hsplit, hfilter⟩ := ih l1k l2k r h
      exact ⟨c :: l1, l2, by rw [hsplit]; rfl,
        by rw [List.filter_cons_of_neg (by simpa using hp), hfilter]⟩

/-- C1: for every non-empty candidate pool whose members carry classes drawn
from the fixed label set (the documented pool invariant), `pickDominant`
returns a member of the pool whose class rank is ≥ the rank of every other
candidate; it is the earliest-contributed candidate of maximal rank
(everything contributed before it ranks strictly lower); and an unknown-class
candidate is returned only when the pool contains no known-class candidate. -/
theorem C1_pickDominant_dominance (cs : List Complexity) (hne : cs ≠ [])
    (hvalid : ∀ c ∈ cs, c.bigO ∈ validBigOLabels) :
    pickDominant cs ∈ cs ∧
    (∀ c ∈ cs, rankBigO c.bigO ≤ rankBigO (pickDominant cs).bigO) ∧
    (∃ l1 l2, cs = l1 ++ pickDominant cs :: l2 ∧
      ∀ c ∈ l1, rankBigO c.bigO < rankBigO (pickDominant cs).bigO) ∧
    ((∃ c ∈ cs, c.bigO ≠ "O(?)") → (pickDominant cs).bigO ≠ "O(?)") := by
  classical
  set p : Complexity → Bool := fun c => c.bigO != "O(?)" with hp
  by_cases hk : (cs.filter p).isEmpty
  · -- no known-class candidate: every member is the unknown placeholder
    have hall : ∀ c ∈ cs, c.bigO = "O(?)" := by
      intro c hc
      have := List.filter_eq_nil_iff.mp (List.isEmpty_iff.mp hk) c hc
      simpa [hp] using this
    obtain ⟨h, t, rfl⟩ : ∃ h t, cs = h :: t := by
      cases cs with
      | nil => exact absurd rfl hne
      | cons h t => exact ⟨h, t, rfl⟩
    have hlist : pickDominant (h :: t) = (h :: t).foldl pickStep h := by
      simp [pickDominant, hk, List.headD]
    have hranks : ∀ c ∈ h :: t, rankBigO c.bigO = -1 := fun c hc => by
      rw [hall c hc]; exact rankBigO_unknown
    have hfold : (h :: t).foldl pickStep h = h := by
      rcases (foldl_pickStep_spec (h :: t) h).2.2 with heq | ⟨l1, l2, hsplit, hlt, _⟩
      · exact heq
      · exfalso
        have hrmem : (h :: t).foldl pickStep h ∈ h :: t := mem_of_eq_append_cons hsplit
        have := hranks _ hrmem
        have := hranks h (List.mem_cons_self _ _)
        omega
    rw [hlist, hfold]
    refine ⟨List.mem_cons_self _ _, ?_, ⟨[], t, rfl, by simp⟩, ?_⟩
    · intro c hc
      rw [hranks c hc, hranks h (List.mem_cons_self _ _)]
    · rintro ⟨c, hc, hcne⟩
      exact absurd (hall c hc) hcne
  · -- at least one known-class candidate: the resolver works on the filter
    obtain ⟨k, kt, hkcons⟩ : ∃ k kt, cs.filter p = k :: kt := by
      cases hf : cs.filter p with
      | nil => rw [hf] at hk; simp at hk
      | cons k kt => exact ⟨k, kt, rfl⟩
    have hlist : pickDominant cs = (k :: kt).foldl pickStep k := by
      simp [pickDominant, hk, hkcons, List.headD]
    obtain ⟨hle, hinit, hsplit3⟩ := foldl_pickStep_spec (k :: kt) k
    have hrmemf : pickDominant cs ∈ cs.filter p := by
      rw [hlist, hkcons]
      rcases foldl_pickStep_mem (k :: kt) k with heq | hmem
      · rw [heq]; exact List.mem_cons_self _ _
      · exact hmem
    have hrmem : pickDominant cs ∈ cs := List.mem_of_mem_filter hrmemf
    have hrknown : (pickDominant cs).bigO ≠ "O(?)" := by
      have := List.of_mem_filter hrmemf
      simpa [hp] using this
    have hrnonneg : 0 ≤ rankBigO (pickDominant cs).bigO :=
      rankBigO_nonneg_of_valid (hvalid _ hrmem) hrknown
    refine ⟨hrmem, ?_, ?_, fun _ => hrknown⟩
    · intro c hc
      by_cases hcu : c.bigO = "O(?)"
      · rw [hcu, rankBigO_unknown]; omega
      · have hcf : c ∈ cs.filter p :=
          List.mem_filter.mpr ⟨hc, by simp [hp, hcu]⟩
        rw [hkcons] at hcf
        have := hle c hcf
        rw [hlist]
        exact this
    · -- earliest-contributed among the maximal-rank candidates
      have hsplitk : ∃ l1k l2k, cs.filter p = l1k ++ pickDominant cs :: l2k ∧
          ∀ c ∈ l1k, rankBigO c.bigO < rankBigO (pickDominant cs).bigO := by
        rcases hsplit3 with heq | ⟨l1, l2, hspl, _, hall⟩
        · refine ⟨[], kt, ?_, by simp⟩
          rw [hkcons, hlist, heq]
          simp
        · refine ⟨l1, l2, ?_, ?_⟩
          · rw [hkcons, hlist, ← hspl]
          · intro c hc
            rw [hlist]
            exact hall c hc
      obtain ⟨l1k, l2k, hfsplit, hklt⟩ := hsplitk
      obtain ⟨l1, l2, hcsplit, hfl1⟩ := filter_split p cs l1k l2k _ hfsplit
      refine ⟨l1, l2, hcsplit, ?_⟩
      intro c hc
      by_cases hcu : c.bigO = "O(?)"
      · rw [hcu, rankBigO_unknown]; omega
      · have hcf : c ∈ l1.filter p := List.mem_filter.mpr ⟨hc, by simp [hp, hcu]⟩
        rw [hfl1] at hcf
        exact hklt c hcf

/-! ## Label-set invariance (C3) -/

theorem pickDominant_mem_or_unknown (cs : List Complexity) :
    pickDominant cs ∈ cs ∨ pickDominant cs = ⟨"O(?)", 0.25⟩ := by
  unfold pickDominant
  dsimp only
  split
  · cases cs with
    | nil => right; rfl
    | cons x t =>
      rcases foldl_pickStep_mem (x :: t) ((x :: t).headD ⟨"O(?)", 0.25⟩) with heq | hmem
      · left; rw [heq]; exact List.mem_cons_self _ _
      · left; exact hmem
  · next hk =>
    cases hf : cs.filter (fun c => c.bigO != "O(?)") with
    | nil => rw [hf] at hk; simp at hk
    | cons x t =>
      rcases foldl_pickStep_mem (x :: t) ((x :: t).headD ⟨"O(?)", 0.25⟩) with heq | hmem
      · left
        rw [heq]
        have hx : x ∈ cs.filter (fun c => c.bigO != "O(?)") := by
          rw [hf]; exact List.mem_cons_self x t
        exact List.mem_of_mem_filter hx
      · left
        have hx : (x :: t).foldl pickStep ((x :: t).headD ⟨"O(?)", 0.25⟩) ∈
            cs.filter (fun c => c.bigO != "O(?)") := by
          rw [hf]; exact hmem
        exact List.mem_of_mem_filter hx

theorem pickDominant_valid {cs : List Complexity}
    (h : ∀ c ∈ cs, c.bigO ∈ validBigOLabels) :
    (pickDominant cs).bigO ∈ validBigOLabels := by
  rcases pickDominant_mem_or_unknown cs with hmem | heq
  · exact h _ hmem
  · rw [heq]; decide

/-- The recursion detector only ever produces the three canonical recursion
classes. -/
theorem classifyNames_mem (text : List Char) :
    ∀ names r, classifyNames text names = some r → r ∈ ["O(n!)", "O(2^n)", "O(n)"] := by
  intro names
  induction names with
  | nil => intro r h; simp [classifyNames] at h
  | cons n rest ih =>
    intro r h
    unfold classifyNames at h
    split at h
    · exact ih r h
    · split at h
      · cases h; simp
      · split at h
        · cases h; simp
        · cases h; simp

theorem canonicalLoopComplexity_valid (d : Nat) (hl : Bool) (c : Nat) :
    canonicalLoopComplexity d hl c ∈ validBigOLabels := by
  unfold canonicalLoopComplexity
  split_ifs
  all_goals decide

theorem timeCandidatesOf_valid (hs : Bool) (rec : Option String) (lb : String)
    (lc : Nat) (hrec : ∀ r, rec = some r → r ∈ validBigOLabels)
    (hlb : lb ∈ validBigOLabels) :
    ∀ c ∈ timeCandidatesOf hs rec lb lc, c.bigO ∈ validBigOLabels := by
  intro c hc
  unfold timeCandidatesOf at hc
  simp only [List.mem_append] at hc
  rcases hc with ((hc | hc) | hc) | hc
  · split at hc
    · simp at hc; rw [hc]; decide
    · simp at hc
  · rcases rec with _ | r
    · simp at hc
    · simp at hc
      rw [hc]
      exact hrec r rfl
  · split at hc
    · simp at hc; rw [hc]; exact hlb
    · simp at hc; rw [hc]; decide
  · split at hc
    · simp at hc; rw [hc]; decide
    · simp at hc

/-- The time class of every lexical analysis is a canonical label. -/
theorem analyse_time_valid (code : String) (chosenLang : Lang) :
    (analyse code chosenLang).time.bigO ∈ validBigOLabels := by
  unfold analyse analyseResolved analyseAssemble
  dsimp only
  apply pickDominant_valid
  apply timeCandidatesOf_valid
  · intro r h
    have := classifyNames_mem _ _ r h
    simp only [List.mem_cons, List.not_mem_nil, or_false] at this
    rcases this with rfl | rfl | rfl
    all_goals decide
  · exact canonicalLoopComplexity_valid _ _ _

theorem canonicalLoopComplexityCst_valid (d : Nat) (hl : Bool) :
    canonicalLoopComplexityCst d hl ∈ validBigOLabels := by
  unfold canonicalLoopComplexityCst
  split_ifs
  all_goals decide

theorem recursionComplexityCst_mem (recursion : List RecursionSignal) :
    ∀ r, recursionComplexityCst recursion = some r →
      r ∈ ["O(n!)", "O(2^n)", "O(n)"] := by
  intro r h
  unfold recursionComplexityCst at h
  split_ifs at h
  all_goals simp_all

/-- Membership through the empty-pool guard. -/
theorem mem_ite_empty_guard {d c : Complexity} {l : List Complexity}
    (hc : c ∈ (if l.isEmpty then [d] else l)) : c = d ∨ c ∈ l := by
  split at hc
  · simp at hc; exact Or.inl hc
  · exact Or.inr hc

/-- Membership in a conditionally contributed singleton. -/
theorem mem_ite_singleton {b : Bool} {d c : Complexity}
    (hc : c ∈ (if b then [d] else ([] : List Complexity))) : c = d := by
  split at hc <;> simp_all

theorem timeCandidatesCstOf_valid (e le hs : Bool) (rec : Option String)
    (lb : String) (hrec : ∀ r, rec = some r → r ∈ validBigOLabels)
    (hlb : lb ∈ validBigOLabels) :
    ∀ c ∈ timeCandidatesCstOf e le hs rec lb, c.bigO ∈ validBigOLabels := by
  intro c hc
  unfold timeCandidatesCstOf at hc
  dsimp only at hc
  rcases mem_ite_empty_guard hc with rfl | hc2
  · decide
  · simp only [List.mem_append] at hc2
    rcases hc2 with ((((hc3 | hc3) | hc3) | hc3) | hc3)
    · rw [mem_ite_singleton hc3]; decide
    · rw [mem_ite_singleton hc3]; exact hlb
    · rw [mem_ite_singleton hc3]; decide
    · rw [mem_ite_singleton hc3]; decide
    · rcases rec with _ | r
      · simp at hc3
      · simp at hc3
        rw [hc3]
        exact hrec r rfl

theorem pickDominantCst_valid {cs : List Complexity}
    (h : ∀ c ∈ cs, c.bigO ∈ validBigOLabels) :
    ((pickDominantCst cs).getD ⟨"O(?)", 0.25⟩).bigO ∈ validBigOLabels := by
  cases cs with
  | nil => decide
  | cons x t =>
    simp only [pickDominantCst, Option.getD_some]
    rcases foldl_pickStep_mem (x :: t) x with heq | hmem
    · rw [heq]; exact h x (List.mem_cons_self _ _)
    · exact h _ hmem

/-- The time class of every CST-path analysis is a canonical label. -/
theorem analyseWithTreeSitter_time_valid (outcome : Except CstFailure TSNode)
    (code : String) (chosenLang : Lang) :
    (analyseWithTreeSitter outcome code chosenLang).time.bigO ∈ validBigOLabels := by
  cases outcome with
  | error e =>
    show (analyseResolved code.toList (resolveLang chosenLang)).time.bigO ∈ _
    exact analyse_time_valid code chosenLang
  | ok root =>
    show (((pickDominantCst _).getD ⟨"O(?)", 0.25⟩)).bigO ∈ _
    apply pickDominantCst_valid
    apply timeCandidatesCstOf_valid
    · intro r h
      have := recursionComplexityCst_mem _ r h
      simp only [List.mem_cons, List.not_mem_nil, or_false] at this
      rcases this with rfl | rfl | rfl
      all_goals decide
    · exact canonicalLoopComplexityCst_valid _ _

/-- C3: for every input string and language tag (supported or `auto`), the
`time.bigO` field produced by `analyse`, and by `analyseWithTreeSitter` on
either path (any parse outcome), is one of the eight fixed canonical labels
or the unknown placeholder `O(?)`; no other string is ever produced. -/
theorem C3_bigO_is_canonical (code : String) (chosenLang : Lang) :
    (analyse code chosenLang).time.bigO ∈ validBigOLabels ∧
    ∀ outcome : Except CstFailure TSNode,
      (analyseWithTreeSitter outcome code chosenLang).time.bigO ∈ validBigOLabels :=
  ⟨analyse_time_valid code chosenLang,
   fun outcome => analyseWithTreeSitter_time_valid outcome code chosenLang⟩

/-- Witness for C1 at a concrete two-candidate pool. -/
theorem C1_pickDominant_dominance_witness :
    pickDominant [⟨"O(n)", 0.62⟩, ⟨"O(n log n)", 0.7⟩] ∈
      ([⟨"O(n)", 0.62⟩, ⟨"O(n log n)", 0.7⟩] : List Complexity) ∧
    (∀ c ∈ ([⟨"O(n)", 0.62⟩, ⟨"O(n log n)", 0.7⟩] : List Complexity),
      rankBigO c.bigO ≤ rankBigO (pickDominant [⟨"O(n)", 0.62⟩, ⟨"O(n log n)", 0.7⟩]).bigO) ∧
    (∃ l1 l2, ([⟨"O(n)", 0.62⟩, ⟨"O(n log n)", 0.7⟩] : List Complexity) =
        l1 ++ pickDominant [⟨"O(n)", 0.62⟩, ⟨"O(n log n)", 0.7⟩] :: l2 ∧
      ∀ c ∈ l1, rankBigO c.bigO < rankBigO (pickDominant [⟨"O(n)", 0.62⟩, ⟨"O(n log n)", 0.7⟩]).bigO) ∧
    ((∃ c ∈ ([⟨"O(n)", 0.62⟩, ⟨"O(n log n)", 0.7⟩] : List Complexity), c.bigO ≠ "O(?)") →
      (pickDominant [⟨"O(n)", 0.62⟩, ⟨"O(n log n)", 0.7⟩]).bigO ≠ "O(?)") :=
  C1_pickDominant_dominance [⟨"O(n)", 0.62⟩, ⟨"O(n log n)", 0.7⟩]
    (by decide) (by decide)

/-! ## The fallback contract (C2), auto resolution (C8), empty input (C7) -/

/-- C2: whenever the CST path fails, for any of the three failure reasons
(parser module unavailable, grammar load failure, parse error),
`analyseWithTreeSitter` returns exactly the lexical `analyse` result for the
same input and resolved language — identical loops, tags and time — with
exactly one rationale entry disclosing the fallback prepended to the lexical
why-list; the failure is recovered locally (the function is total on every
outcome) and never propagated to the caller as an error. -/
theorem C2_fallback_equals_lexical (reason : CstFailure) (code : String)
    (chosenLang : Lang) :
    (analyseWithTreeSitter (.error reason) code chosenLang).loops =
      (analyse code chosenLang).loops ∧
    (analyseWithTreeSitter (.error reason) code chosenLang).tags =
      (analyse code chosenLang).tags ∧
    (analyseWithTreeSitter (.error reason) code chosenLang).time =
      (analyse code chosenLang).time ∧
    (analyseWithTreeSitter (.error reason) code chosenLang).why =
      fallbackWhy :: (analyse code chosenLang).why := by
  cases reason <;> exact ⟨rfl, rfl, rfl, rfl⟩

/-- C8: the `auto` tag resolves deterministically to the fixed default
profile (Python): for every input string, analysing with `auto` returns
exactly the same result as analysing with `python`, on both the lexical and
the CST entry points (for every parse outcome) — so `auto` is never resolved
by inspecting the input content. -/
theorem C8_auto_resolves_to_python (code : String) :
    analyse code Lang.auto = analyse code Lang.python ∧
    ∀ outcome : Except CstFailure TSNode,
      analyseWithTreeSitter outcome code Lang.auto =
        analyseWithTreeSitter outcome code Lang.python :=
  ⟨rfl, fun _ => rfl⟩

/-- C7: for the empty input string and every language tag, `analyse` returns
zero loops, the constant class `O(1)`, and confidence ≤ 0.35; and since the
embedded `analyse` is a total function, empty (or any malformed) text never
produces a thrown failure. -/
theorem C7_empty_input (chosenLang : Lang) :
    (analyse "" chosenLang).loops.count = 0 ∧
    (analyse "" chosenLang).time.bigO = "O(1)" ∧
    (analyse "" chosenLang).time.confidence ≤ 0.35 := by
  have hconf : (analyse "" chosenLang).time.confidence = (0.3 : Rat) := by
    cases chosenLang <;> rfl
  refine ⟨?_, ?_, ?_⟩
  · cases chosenLang <;> decide
  · cases chosenLang <;> decide
  · rw [hconf]; norm_num

/-! ## The nested-loop scenario and brace ordering (C6) -/

/-- Two nested `for` loops, each bounded by `n`, in C. -/
def nestedForC : String :=
  "for (int i = 0; i < n; i++) \x7b\n    for (int j = 0; j < n; j++) \x7b\n        x++;\n    \x7d\n\x7d"

/-- A closing brace and a new `for` header on the same line: the close pops
the open loop scope before loop detection, so the second loop is a sibling,
not a child. -/
def closeThenForC : String :=
  "for (int i = 0; i < n; i++) \x7b\n\x7d for (int j = 0; j < n; j++) \x7b\n\x7d"

/-- C6: a C input of two nested `for` loops each bounded by `n` yields
`loops.maxDepth = 2` and `time.bigO = "O(n^2)"`; and the scan applies a
line's closing braces - popping open loop scopes - before loop detection and
its opening braces after, witnessed by a close-brace and a `for` on one line
yielding depth 1 (a sibling) rather than 2. -/
theorem C6_nested_for_c :
    (analyse nestedForC Lang.c).loops.maxDepth = 2 ∧
    (analyse nestedForC Lang.c).time.bigO = "O(n^2)" ∧
    (analyse nestedForC Lang.c).loops.count = 2 ∧
    (analyse closeThenForC Lang.c).loops.maxDepth = 1 := by
  exact ⟨by decide, by decide, by decide, by decide⟩

/-! ## The recursion detector (C4) -/

/-- The first candidate name with at least two call-like occurrences. -/
def firstFlaggedName (text : List Char) : Option (List Char) :=
  (collectNames text).find? fun n => decide (1 < countNameCall n text)

/-- The per-name loop of the recursion detector agrees with `find?` over the
flagging predicate. -/
theorem classifyNames_eq_find (text : List Char) :
    ∀ names : List (List Char),
      classifyNames text names =
        match names.find? (fun n => decide (1 < countNameCall n text)) with
        | none => none
        | some name =>
          some (if multReturnTest text then "O(n!)"
            else if 3 ≤ countNameCall name text then "O(2^n)" else "O(n)") := by
  intro names
  induction names with
  | nil => rfl
  | cons n rest ih =>
    unfold classifyNames
    by_cases hn : countNameCall n text ≤ 1
    · rw [if_pos hn, ih, List.find?_cons_of_neg]
      simp
      omega
    · rw [if_neg hn, List.find?_cons_of_pos _ (by simp; omega)]
      dsimp only
      split_ifs with h1 h2 <;> rfl

/-- The fib-like scenario input: a single function whose body contains two
recursive self-calls and no multiplicative return. -/
def fibInput : String :=
  "def fib(n):\n    if n < 2: return n\n    return fib(n-1) + fib(n-2)"

/-- An input whose first (flagged) function body contains two recursive
self-calls and no multiplicative return anywhere in that body — but a second
function later in the text returns `2 * h(n)`. -/
def crossTalkInput : String :=
  "def f(n):\n    return f(n-1) + f(n-2)\n\ndef g(n):\n    return 2 * h(n)"

/-- C4 counterexample: the claim predicts `O(2^n)` for `crossTalkInput`
(the flagged function `f` has two recursive self-calls and no multiplicative
return in its body), but the factorial test is a whole-text regex, so the
sibling function's `return 2 * h(n)` - which does not even multiply by a
recursive call - makes the detector classify `O(n!)`. -/
theorem C4_counterexample_whole_text_factorial :
    (analyse crossTalkInput Lang.python).tags = ["recursion"] ∧
    (analyse crossTalkInput Lang.python).time.bigO = "O(n!)" ∧
    (analyse crossTalkInput Lang.python).time.bigO ≠ "O(2^n)" :=
  ⟨by decide, by decide, by decide⟩

/-- C4 (amended): the recursion detector flags no candidate name whose
call-like occurrence count is ≤ 1; for the first flagged name (in discovery
order), if the whole stripped text contains a `return` keyword later followed
by a multiplication by a call-like term - wherever in the text, and whether
or not that call is recursive - the classification is factorial `O(n!)`;
else if the name's occurrence count minus one is ≥ 2 it is exponential
`O(2^n)`; otherwise linear `O(n)`.  In particular, an input consisting of a
single function whose body contains two recursive self-calls and no
multiplicative return anywhere yields tags `["recursion"]` and
`time.bigO = "O(2^n)"`. -/
theorem C4_recursion_detector_amended :
    (∀ text : List Char,
      (∀ name ∈ collectNames text, countNameCall name text ≤ 1) →
        detectRecursionComplexity text = none) ∧
    (∀ (text name : List Char), firstFlaggedName text = some name →
      detectRecursionComplexity text =
        some (if multReturnTest text then "O(n!)"
          else if 3 ≤ countNameCall name text then "O(2^n)" else "O(n)")) ∧
    ((analyse fibInput Lang.python).tags = ["recursion"] ∧
      (analyse fibInput Lang.python).time.bigO = "O(2^n)") := by
  refine ⟨?_, ?_, by decide, by decide⟩
  · intro text hall
    unfold detectRecursionComplexity
    rw [classifyNames_eq_find]
    have hnone : (collectNames text).find?
        (fun n => decide (1 < countNameCall n text)) = none := by
      rw [List.find?_eq_none]
      intro n hn
      simp
      exact hall n hn
    rw [hnone]
  · intro text name hfind
    unfold detectRecursionComplexity
    rw [classifyNames_eq_find]
    unfold firstFlaggedName at hfind
    rw [hfind]

/-- Witness for C4 (amended), discharging both hypotheses at concrete
inputs: a text with no flaggable name, and the fib-like scenario text. -/
theorem C4_recursion_detector_amended_witness :
    detectRecursionComplexity "x = 1".toList = none ∧
    detectRecursionComplexity fibInput.toList = some "O(2^n)" := by
  constructor
  · exact C4_recursion_detector_amended.1 "x = 1".toList (by decide)
  · rw [C4_recursion_detector_amended.2.1 fibInput.toList "fib".toList (by decide)]
    decide

/-! ## Idempotence of comment stripping (C5) -/

/-- Unfolding of the line-comment scan on a line that does not open `//`. -/
theorem stripSlashAux_false_cons (c : Char) (X : List Char)
    (h : ∀ r, c = '/' → X = '/' :: r → False) :
    stripSlashAux false (c :: X) = c :: stripSlashAux false X := by
  simp only [stripSlashAux]

/-- Every character of the line-stripped text occurs in the input. -/
theorem mem_stripSlashAux : ∀ (b : Bool) (t : List Char) (x : Char),
    x ∈ stripSlashAux b t → x ∈ t := by
  intro b t
  induction b, t using stripSlashAux.induct with
  | case1 rest ih =>
    intro x hx
    rw [show stripSlashAux false ('/' :: '/' :: rest) = stripSlashAux true rest
      from rfl] at hx
    exact List.mem_cons_of_mem _ (List.mem_cons_of_mem _ (ih x hx))
  | case2 c rest h ih =>
    intro x hx
    rw [stripSlashAux_false_cons c rest h] at hx
    rcases List.mem_cons.mp hx with rfl | hx2
    · exact List.mem_cons_self _ _
    · exact List.mem_cons_of_mem _ (ih x hx2)
  | case3 => intro x hx; exact hx
  | case4 c rest hterm ih =>
    intro x hx
    have hunf : stripSlashAux true (c :: rest) = c :: stripSlashAux false rest := by
      simp only [stripSlashAux, hterm, if_true]
    rw [hunf] at hx
    rcases List.mem_cons.mp hx with rfl | hx2
    · exact List.mem_cons_self _ _
    · exact List.mem_cons_of_mem _ (ih x hx2)
  | case5 c rest hterm ih =>
    intro x hx
    have hunf : stripSlashAux true (c :: rest) = stripSlashAux true rest := by
      simp [stripSlashAux, hterm]
    rw [hunf] at hx
    exact List.mem_cons_of_mem _ (ih x hx)
  | case6 => intro x hx; simp [stripSlashAux] at hx

/-- Applying the line-comment scan to already line-stripped text is a no-op:
the stripped text contains no `//` outside what a fresh scan removes
identically. -/
theorem stripSlashAux_idem : ∀ (b : Bool) (t : List Char),
    stripSlashAux false (stripSlashAux b t) = stripSlashAux b t := by
  intro b t
  induction b, t using stripSlashAux.induct with
  | case1 rest ih =>
    rw [show stripSlashAux false ('/' :: '/' :: rest) = stripSlashAux true rest
      from rfl]
    exact ih
  | case2 c rest h ih =>
    rw [stripSlashAux_false_cons c rest h]
    have hX : ∀ r, c = '/' → stripSlashAux false rest = '/' :: r → False := by
      intro r hc hr
      cases rest with
      | nil => simp [stripSlashAux] at hr
      | cons d r2 =>
        have hd : d ≠ '/' := fun hdd => h r2 hc (by rw [hdd])
        rw [stripSlashAux_false_cons d r2 (fun _ hdd _ => hd hdd)] at hr
        have : d = '/' := by
          have := congrArg List.head? hr
          simpa using this
        exact hd this
    rw [stripSlashAux_false_cons c (stripSlashAux false rest) hX, ih]
  | case3 => rfl
  | case4 c rest hterm ih =>
    have hunf : stripSlashAux true (c :: rest) = c :: stripSlashAux false rest := by
      simp only [stripSlashAux, hterm, if_true]
    rw [hunf]
    have hc : c = '\n' ∨ c = '\r' := by
      rcases Bool.or_eq_true_iff.mp hterm with h1 | h1
      · exact Or.inl (of_decide_eq_true h1)
      · exact Or.inr (of_decide_eq_true h1)
    have hne : ∀ r, c = '/' → stripSlashAux false rest = '/' :: r → False := by
      intro r hcc _
      rcases hc with rfl | rfl <;> simp at hcc
    rw [stripSlashAux_false_cons c (stripSlashAux false rest) hne, ih]
  | case5 c rest hterm ih =>
    have hunf : stripSlashAux true (c :: rest) = stripSlashAux true rest := by
      simp [stripSlashAux, hterm]
    rw [hunf]
    exact ih
  | case6 => rfl

/-- Every character of the hash-stripped text occurs in the input. -/
theorem mem_stripHashAux : ∀ (b : Bool) (t : List Char) (x : Char),
    x ∈ stripHashAux b t → x ∈ t := by
  intro b t
  induction b, t using stripHashAux.induct with
  | case1 rest ih =>
    intro x hx
    rw [show stripHashAux false ('#' :: rest) = stripHashAux true rest by
      simp [stripHashAux]] at hx
    exact List.mem_cons_of_mem _ (ih x hx)
  | case2 c rest hc ih =>
    intro x hx
    rw [show stripHashAux false (c :: rest) = c :: stripHashAux false rest by
      simp [stripHashAux, hc]] at hx
    rcases List.mem_cons.mp hx with rfl | hx2
    · exact List.mem_cons_self _ _
    · exact List.mem_cons_of_mem _ (ih x hx2)
  | case3 => intro x hx; exact hx
  | case4 c rest hterm ih =>
    intro x hx
    rw [show stripHashAux true (c :: rest) = c :: stripHashAux false rest by
      simp [stripHashAux, hterm]] at hx
    rcases List.mem_cons.mp hx with rfl | hx2
    · exact List.mem_cons_self _ _
    · exact List.mem_cons_of_mem _ (ih x hx2)
  | case5 c rest hterm ih =>
    intro x hx
    rw [show stripHashAux true (c :: rest) = stripHashAux true rest by
      simp [stripHashAux, hterm]] at hx
    exact List.mem_cons_of_mem _ (ih x hx)
  | case6 => intro x hx; simp [stripHashAux] at hx

/-- Applying the hash-comment scan to already stripped text is a no-op. -/
theorem stripHashAux_idem : ∀ (b : Bool) (t : List Char),
    stripHashAux false (stripHashAux b t) = stripHashAux b t := by
  intro b t
  induction b, t using stripHashAux.induct with
  | case1 rest ih =>
    rw [show stripHashAux false ('#' :: rest) = stripHashAux true rest by
      simp [stripHashAux]]
    exact ih
  | case2 c rest hc ih =>
    rw [show stripHashAux false (c :: rest) = c :: stripHashAux false rest by
      simp [stripHashAux, hc]]
    rw [show stripHashAux false (c :: stripHashAux false rest) =
        c :: stripHashAux false (stripHashAux false rest) by
      simp [stripHashAux, hc]]
    rw [ih]
  | case3 => rfl
  | case4 c rest hterm ih =>
    rw [show stripHashAux true (c :: rest) = c :: stripHashAux false rest by
      simp [stripHashAux, hterm]]
    have hc : c ≠ '#' := by
      rcases Bool.or_eq_true_iff.mp hterm with h1 | h1 <;>
        (rw [of_decide_eq_true h1]; decide)
    rw [show stripHashAux false (c :: stripHashAux false rest) =
        c :: stripHashAux false (stripHashAux false rest) by
      simp [stripHashAux, hc]]
    rw [ih]
  | case5 c rest hterm ih =>
    rw [show stripHashAux true (c :: rest) = stripHashAux true rest by
      simp [stripHashAux, hterm]]
    exact ih
  | case6 => rfl

/-- A text with no `*` contains no block comment, so the block stripper is
the identity on it. -/
theorem stripBlockAux_of_no_star :
    ∀ (st : Option (List Char)) (t : List Char), st = none → '*' ∉ t →
      stripBlockAux st t = t := by
  intro st t
  induction st, t using stripBlockAux.induct with
  | case1 rest ih =>
    intro _ hstar
    exact absurd (List.mem_cons_of_mem _ (List.mem_cons_self _ _)) hstar
  | case2 c rest h ih =>
    intro _ hstar
    have hunf : stripBlockAux none (c :: rest) = c :: stripBlockAux none rest := by
      simp only [stripBlockAux]
    rw [hunf, ih rfl (fun hm => hstar (List.mem_cons_of_mem _ hm))]
  | case3 => intro _ _; rfl
  | case4 _ ih => intro heq; exact absurd heq (by simp)
  | case5 buf c rest h ih => intro heq; exact absurd heq (by simp)
  | case6 buf => intro heq; exact absurd heq (by simp)

/-- A text with no quote character contains no triple-quoted block, so the
triple-quote stripper is the identity on it. -/
theorem stripTripleAux_of_no_quote (q : Char) :
    ∀ (st : Option (List Char)) (t : List Char), st = none → q ∉ t →
      stripTripleAux q st t = t := by
  intro st t
  induction st, t using stripTripleAux.induct q with
  | case1 a b c rest h ih =>
    intro _ hq
    simp only [Bool.and_eq_true, decide_eq_true_eq] at h
    exact absurd (h.1.1 ▸ List.mem_cons_self _ _) hq
  | case2 a b c rest h ih =>
    intro _ hq
    have hunf : stripTripleAux q none (a :: b :: c :: rest) =
        a :: stripTripleAux q none (b :: c :: rest) := by
      simp [stripTripleAux, h]
    rw [hunf, ih rfl (fun hm => hq (List.mem_cons_of_mem _ hm))]
  | case3 other h =>
    intro _ _
    match other, h with
    | [], _ => rfl
    | [x], _ => rfl
    | [x, y], _ => rfl
    | x :: y :: z :: r, h => exact absurd rfl (fun hh => h x y z r hh)
  | case4 buf a b c rest h ih => intro heq; exact absurd heq (by simp)
  | case5 buf a b c rest h ih => intro heq; exact absurd heq (by simp)
  | case6 buf other h => intro heq; exact absurd heq (by simp)

/-- The input whose stripping is not idempotent. -/
def notIdemInput : String := "a//*x*/* b */ c"

/-- C5 counterexample: for the C profile, one strip of `a//*x*/* b */ c`
removes the block comment `/*x*/`, concatenating the preceding `/` with the
following `*` into a fresh block-comment opener; the result `a/* b */ c`
still changes under a second strip (to `a c`), so
`stripComments(stripComments(t,p),p) ≠ stripComments(t,p)`. -/
theorem C5_counterexample_not_idempotent :
    (PROFILES .c).removeComments ((PROFILES .c).removeComments notIdemInput.toList) ≠
      (PROFILES .c).removeComments notIdemInput.toList ∧
    (PROFILES .c).removeComments notIdemInput.toList = "a/* b */ c".toList ∧
    (PROFILES .c).removeComments ((PROFILES .c).removeComments notIdemInput.toList) =
      "a c".toList :=
  ⟨by decide, by decide, by decide⟩

/-- Does the text contain a block-comment opener `/*` anywhere. -/
def hasBlockOpen : List Char → Bool
  | a :: b :: rest => (a = '/' && b = '*') || hasBlockOpen (b :: rest)
  | _ => false

/-- Does the text contain three consecutive `q` quotes anywhere. -/
def hasTripleQuote (q : Char) : List Char → Bool
  | a :: b :: c :: rest => (a = q && b = q && c = q) || hasTripleQuote q (b :: c :: rest)
  | _ => false

/-- A text with no `/*` opener contains no block comment, so the block
stripper is the identity on it. -/
theorem stripBlockAux_of_no_open :
    ∀ (st : Option (List Char)) (t : List Char), st = none →
      hasBlockOpen t = false → stripBlockAux st t = t := by
  intro st t
  induction st, t using stripBlockAux.induct with
  | case1 rest ih =>
    intro _ hopen
    simp [hasBlockOpen] at hopen
  | case2 c rest h ih =>
    intro _ hopen
    have hunf : stripBlockAux none (c :: rest) = c :: stripBlockAux none rest := by
      simp only [stripBlockAux]
    have hrest : hasBlockOpen rest = false := by
      cases rest with
      | nil => rfl
      | cons d r =>
        simp only [hasBlockOpen, Bool.or_eq_false_iff] at hopen
        exact hopen.2
    rw [hunf, ih rfl hrest]
  | case3 => intro _ _; rfl
  | case4 _ ih => intro heq; exact absurd heq (by simp)
  | case5 buf c rest h ih => intro heq; exact absurd heq (by simp)
  | case6 buf => intro heq; exact absurd heq (by simp)

/-- A text with no tripled quote contains no triple-quoted block, so the
triple-quote stripper is the identity on it. -/
theorem stripTripleAux_of_no_triple (q : Char) :
    ∀ (st : Option (List Char)) (t : List Char), st = none →
      hasTripleQuote q t = false → stripTripleAux q st t = t := by
  intro st t
  induction st, t using stripTripleAux.induct q with
  | case1 a b c rest h ih =>
    intro _ hq
    simp only [Bool.and_eq_true, decide_eq_true_eq] at h
    obtain ⟨⟨rfl, rfl⟩, rfl⟩ := h
    simp [hasTripleQuote] at hq
  | case2 a b c rest h ih =>
    intro _ hq
    have hunf : stripTripleAux q none (a :: b :: c :: rest) =
        a :: stripTripleAux q none (b :: c :: rest) := by
      simp [stripTripleAux, h]
    have hrest : hasTripleQuote q (b :: c :: rest) = false := by
      simp only [hasTripleQuote, Bool.or_eq_false_iff] at hq
      exact hq.2
    rw [hunf, ih rfl hrest]
  | case3 other h =>
    intro _ _
    match other, h with
    | [], _ => rfl
    | [x], _ => rfl
    | [x, y], _ => rfl
    | x :: y :: z :: r, h => exact absurd rfl (fun hh => h x y z r hh)
  | case4 buf a b c rest h ih => intro heq; exact absurd heq (by simp)
  | case5 buf a b c rest h ih => intro heq; exact absurd heq (by simp)
  | case6 buf other h => intro heq; exact absurd heq (by simp)

/-- The per-profile restriction under which one strip is a fixed point: the
once-stripped text contains no block opener (`/*` for C/Java, a tripled
quote for Python).  Inputs whose block comments are well formed and create
no fresh opener when removed — e.g. `int x; /* note */ y;` — satisfy it. -/
def strippedOpenerFree : SLang → List Char → Prop
  | .python, t => hasTripleQuote '"' (removePythonComments t) = false ∧
      hasTripleQuote squote (removePythonComments t) = false
  | .java, t => hasBlockOpen (removeJavaComments t) = false
  | .c, t => hasBlockOpen (removeCComments t) = false

/-- C5 (amended): comment stripping is not idempotent in general — the block
stage's lazy removal can concatenate the character before the opener with
the text after the closer into a fresh `/*` opener that only a second
application removes (see the counterexample).  What does hold: the
line-comment stage of every profile is idempotent on all texts, and the full
`stripComments` of each profile is idempotent on every input whose
once-stripped text contains no block opener — in particular on inputs whose
block comments are well formed. -/
theorem C5_stripComments_idempotent_amended :
    (∀ t : List Char,
      stripSlashComments (stripSlashComments t) = stripSlashComments t) ∧
    (∀ t : List Char,
      stripHashComments (stripHashComments t) = stripHashComments t) ∧
    (∀ (lang : SLang) (t : List Char), strippedOpenerFree lang t →
      (PROFILES lang).removeComments ((PROFILES lang).removeComments t) =
        (PROFILES lang).removeComments t) := by
  refine ⟨fun t => stripSlashAux_idem false t, fun t => stripHashAux_idem false t, ?_⟩
  intro lang t hfree
  cases lang with
  | python =>
    obtain ⟨hdq, hsq⟩ := hfree
    show stripHashComments (stripTripleQuoted squote (stripTripleQuoted '"'
      (removePythonComments t))) = removePythonComments t
    have h1 : stripTripleQuoted '"' (removePythonComments t) =
        removePythonComments t :=
      stripTripleAux_of_no_triple '"' none _ rfl hdq
    have h2 : stripTripleQuoted squote (removePythonComments t) =
        removePythonComments t :=
      stripTripleAux_of_no_triple squote none _ rfl hsq
    rw [h1, h2]
    show stripHashAux false (stripHashAux false
      (stripTripleQuoted squote (stripTripleQuoted '"' t))) = removePythonComments t
    exact stripHashAux_idem false _
  | java =>
    show stripSlashComments (stripBlockComments (removeJavaComments t)) =
      removeJavaComments t
    have h1 : stripBlockComments (removeJavaComments t) = removeJavaComments t :=
      stripBlockAux_of_no_open none _ rfl hfree
    rw [h1]
    show stripSlashAux false (stripSlashAux false (stripBlockComments t)) =
      removeJavaComments t
    exact stripSlashAux_idem false _
  | c =>
    show stripSlashComments (stripBlockComments (removeCComments t)) =
      removeCComments t
    have h1 : stripBlockComments (removeCComments t) = removeCComments t :=
      stripBlockAux_of_no_open none _ rfl hfree
    rw [h1]
    show stripSlashAux false (stripSlashAux false (stripBlockComments t)) =
      removeCComments t
    exact stripSlashAux_idem false _

/-- An input with a well-formed block comment and a line comment. -/
def wellFormedCInput : String := "int x; /* note */ y; // tail"

/-- An input with a well-formed docstring and a hash comment. -/
def wellFormedPyInput : String := "\"\"\"doc\"\"\"\ns = 1 # note"

/-- Witness for C5 (amended) at concrete inputs that contain actual block
comments (a `/*...*/` comment for C, a docstring for Python). -/
theorem C5_stripComments_idempotent_amended_witness :
    (PROFILES .c).removeComments
        ((PROFILES .c).removeComments wellFormedCInput.toList) =
      (PROFILES .c).removeComments wellFormedCInput.toList ∧
    (PROFILES .python).removeComments
        ((PROFILES .python).removeComments wellFormedPyInput.toList) =
      (PROFILES .python).removeComments wellFormedPyInput.toList :=
  ⟨C5_stripComments_idempotent_amended.2.2 .c wellFormedCInput.toList
      (by show hasBlockOpen (removeCComments wellFormedCInput.toList) = false
          decide),
   C5_stripComments_idempotent_amended.2.2 .python wellFormedPyInput.toList
      (by refine ⟨?_, ?_⟩ <;> decide)⟩

/-! ## Determinism and regex-state independence (C9) -/

/-- The boolean outcome of the stateful `some(safeTest ...)` fold does not
depend on the stored `lastIndex` values, because `safeTest` zeroes them
before testing. -/
theorem someSafeTest_fst (ws : List (List Char)) (s : List Char) :
    ∀ σ : List Nat, (someSafeTest ws s σ).1 = ws.any fun w => safeTestB w s := by
  induction ws with
  | nil => intro σ; rfl
  | cons w ws2 ih =>
    intro σ
    rcases σ with _ | ⟨li, σ2⟩
    · rw [show someSafeTest (w :: ws2) s [] =
          (if (safeTest w s 0).1 then (true, [(safeTest w s 0).2])
           else ((someSafeTest ws2 s []).1,
             (safeTest w s 0).2 :: (someSafeTest ws2 s []).2)) from rfl]
      by_cases h : (safeTest w s 0).1
      · simp [h, safeTestB]
      · simp only [h, if_false, List.any_cons]
        rw [ih []]
        simp [safeTestB, h]
    · rw [show someSafeTest (w :: ws2) s (li :: σ2) =
          (if (safeTest w s li).1 then (true, (safeTest w s li).2 :: σ2)
           else ((someSafeTest ws2 s σ2).1,
             (safeTest w s li).2 :: (someSafeTest ws2 s σ2).2)) from rfl]
      by_cases h : (safeTest w s li).1
      · have hb : safeTestB w s = true := h
        simp [h, hb]
      · have hb : safeTestB w s = false := Bool.of_not_eq_true h
        simp only [h, if_false, List.any_cons]
        rw [ih σ2]
        simp [hb]

theorem braceLineStepST_fst (lang : SLang) (acc : ScanState × List Nat)
    (line : List Char) :
    (braceLineStepST lang acc line).1 = braceLineStep lang acc.1 line := by
  unfold braceLineStepST braceLineStep
  dsimp only
  split
  · rfl
  · rw [someSafeTest_fst]

theorem indentLineStepST_fst (lang : SLang) (acc : ScanState × List Nat)
    (line : List Char) :
    (indentLineStepST lang acc line).1 = indentLineStep lang acc.1 line := by
  unfold indentLineStepST indentLineStep
  dsimp only
  split
  · rfl
  · rw [someSafeTest_fst]

/-- A stateful fold whose step projects to a pure step computes the pure fold
in its first component. -/
theorem foldl_ST_fst (stepST : (ScanState × List Nat) → List Char → ScanState × List Nat)
    (step : ScanState → List Char → ScanState)
    (hstep : ∀ acc line, (stepST acc line).1 = step acc.1 line) :
    ∀ (lines : List (List Char)) (acc : ScanState × List Nat),
      (lines.foldl stepST acc).1 = lines.foldl step acc.1 := by
  intro lines
  induction lines with
  | nil => intro acc; rfl
  | cons l ls ih =>
    intro acc
    show (ls.foldl stepST (stepST acc l)).1 = ls.foldl step (step acc.1 l)
    rw [ih (stepST acc l), hstep]

/-- C9: `analyse` is deterministic, with no dependence on the state carried
over from earlier calls in the shared `/g` regexes\' `lastIndex` fields: the
explicit-state model returns the pure `analyse` result for every incoming
state, so two calls with identical `(s, L)` yield identical results in every
field (loops, tags, time and why). -/
theorem C9_analyse_deterministic (code : String) (chosenLang : Lang) :
    (∀ σ : List Nat, (analyseST code chosenLang σ).1 = analyse code chosenLang) ∧
    (∀ σ1 σ2 : List Nat,
      (analyseST code chosenLang σ1).1 = (analyseST code chosenLang σ2).1) := by
  have hmain : ∀ σ : List Nat,
      (analyseST code chosenLang σ).1 = analyse code chosenLang := by
    intro σ
    show analyseAssemble (resolveLang chosenLang) _ _ = _
    unfold analyse analyseResolved
    apply congrArg
    unfold analyseScan
    split
    · exact foldl_ST_fst _ _ (braceLineStepST_fst _) _ _
    · exact foldl_ST_fst _ _ (indentLineStepST_fst _) _ _
  exact ⟨hmain, fun σ1 σ2 => (hmain σ1).trans (hmain σ2).symm⟩

/-! ## Counting infrastructure for C10 (maxDepth ≤ count) -/

theorem isSpace_not_word {c : Char} (h : isSpaceChar c = true) :
    isWordChar c = false := by
  simp only [isSpaceChar, Bool.or_eq_true, decide_eq_true_eq] at h
  rcases h with ((((rfl | rfl) | rfl) | rfl) | rfl) | rfl <;> decide

theorem word_neq_nonword {wc c : Char} (h1 : isWordChar wc = true)
    (h2 : isWordChar c = false) : (wc == c) = false := by
  rw [beq_eq_false_iff_ne]
  intro hh
  rw [hh] at h1
  simp [h1] at h2

theorem wordMatch_head_nonword {w : List Char} (hw : w ≠ [])
    (hwc : ∀ c ∈ w, isWordChar c = true) {c : Char} (hc : isWordChar c = false)
    (x : List Char) : wordMatch w (c :: x) = false := by
  cases w with
  | nil => exact absurd rfl hw
  | cons wc w2 =>
    have h1 : isWordChar wc = true := hwc wc (List.mem_cons_self _ _)
    show (wc == c && wordMatch w2 x) = false
    rw [word_neq_nonword h1 hc]
    rfl

theorem countWordFrom_prev_inv (w : List Char) {p1 p2 : Option Char}
    (h : prevNonWord p1 = prevNonWord p2) :
    ∀ l, countWordFrom w p1 l = countWordFrom w p2 l := by
  intro l
  cases l with
  | nil => rfl
  | cons c rest =>
    show (if prevNonWord p1 && _ then 1 else 0) + _ =
      (if prevNonWord p2 && _ then 1 else 0) + _
    rw [h]

theorem wordMatch_append_nonword (d : Char) (hd : isWordChar d = false)
    (b : List Char) :
    ∀ (w a : List Char), (∀ c ∈ w, isWordChar c = true) →
      wordMatch w (a ++ d :: b) = wordMatch w a := by
  intro w
  induction w with
  | nil =>
    intro a _
    cases a with
    | nil => simp [wordMatch, hd]
    | cons c a2 => rfl
  | cons wc w2 ih =>
    intro a hw
    cases a with
    | nil =>
      have h1 : isWordChar wc = true := hw wc (List.mem_cons_self _ _)
      show (wc == d && wordMatch w2 b) = wordMatch (wc :: w2) []
      rw [word_neq_nonword h1 hd]
      rfl
    | cons c a2 =>
      show (wc == c && wordMatch w2 (a2 ++ d :: b)) = (wc == c && wordMatch w2 a2)
      rw [ih a2 (fun x hx => hw x (List.mem_cons_of_mem _ hx))]

theorem countWordFrom_all_nonword (w : List Char) (hw : w ≠ [])
    (hwc : ∀ c ∈ w, isWordChar c = true) :
    ∀ (s : List Char) (p : Option Char), (∀ c ∈ s, isWordChar c = false) →
      countWordFrom w p s = 0 := by
  intro s
  induction s with
  | nil => intro p _; rfl
  | cons c s2 ih =>
    intro p hs
    show (if prevNonWord p && wordMatch w (c :: s2) then 1 else 0) +
      countWordFrom w (some c) s2 = 0
    rw [wordMatch_head_nonword hw hwc (hs c (List.mem_cons_self _ _)) s2,
      ih (some c) (fun x hx => hs x (List.mem_cons_of_mem _ hx))]
    simp

theorem countWordFrom_append_nonword (w : List Char) (hw : w ≠ [])
    (hwc : ∀ c ∈ w, isWordChar c = true) (s : List Char)
    (hs : ∀ c ∈ s, isWordChar c = false) :
    ∀ (a : List Char) (p : Option Char),
      countWordFrom w p (a ++ s) = countWordFrom w p a := by
  intro a
  induction a with
  | nil =>
    intro p
    show countWordFrom w p s = countWordFrom w p []
    rw [countWordFrom_all_nonword w hw hwc s p hs]
    rfl
  | cons c a2 ih =>
    intro p
    cases s with
    | nil => simp
    | cons d s2 =>
      show (if prevNonWord p && wordMatch w ((c :: a2) ++ d :: s2) then 1 else 0) +
          countWordFrom w (some c) (a2 ++ d :: s2) =
        (if prevNonWord p && wordMatch w (c :: a2) then 1 else 0) +
          countWordFrom w (some c) a2
      rw [wordMatch_append_nonword d (hs d (List.mem_cons_self _ _)) s2 w (c :: a2) hwc,
        ih (some c)]

theorem countWordFrom_prepend_nonword (w : List Char) (hw : w ≠ [])
    (hwc : ∀ c ∈ w, isWordChar c = true) :
    ∀ (s : List Char), (∀ c ∈ s, isWordChar c = false) →
    ∀ (a : List Char), countWordFrom w none (s ++ a) = countWordFrom w none a := by
  intro s
  induction s with
  | nil => intro _ a; rfl
  | cons c s2 ih =>
    intro hs a
    have hc : isWordChar c = false := hs c (List.mem_cons_self _ _)
    show (if prevNonWord none && wordMatch w (c :: (s2 ++ a)) then 1 else 0) +
        countWordFrom w (some c) (s2 ++ a) = countWordFrom w none a
    rw [wordMatch_head_nonword hw hwc hc (s2 ++ a),
      @countWordFrom_prev_inv w (some c) none (by simp [prevNonWord, hc]),
      ih (fun x hx => hs x (List.mem_cons_of_mem _ hx)) a]
    simp

theorem countWord_trim (w : List Char) (hw : w ≠ [])
    (hwc : ∀ c ∈ w, isWordChar c = true) (l : List Char) :
    countWordFrom w none (trimChars l) = countWordFrom w none l := by
  have hl : l = l.takeWhile isSpaceChar ++ trimLeft l :=
    (List.takeWhile_append_dropWhile isSpaceChar l).symm
  have hpad : ∀ c ∈ l.takeWhile isSpaceChar, isWordChar c = false :=
    fun c hc => isSpace_not_word (List.mem_takeWhile_imp hc)
  have hm : trimLeft l =
      trimChars l ++ ((trimLeft l).reverse.takeWhile isSpaceChar).reverse := by
    conv_lhs => rw [← List.reverse_reverse (trimLeft l),
      ← List.takeWhile_append_dropWhile isSpaceChar (trimLeft l).reverse]
    rw [List.reverse_append]
    rfl
  have hrpad : ∀ c ∈ ((trimLeft l).reverse.takeWhile isSpaceChar).reverse,
      isWordChar c = false := by
    intro c hc
    exact isSpace_not_word (List.mem_takeWhile_imp (List.mem_reverse.mp hc))
  calc countWordFrom w none (trimChars l)
      = countWordFrom w none
          (trimChars l ++ ((trimLeft l).reverse.takeWhile isSpaceChar).reverse) :=
        (countWordFrom_append_nonword w hw hwc _ hrpad _ none).symm
    _ = countWordFrom w none (trimLeft l) := by rw [← hm]
    _ = countWordFrom w none (l.takeWhile isSpaceChar ++ trimLeft l) :=
        (countWordFrom_prepend_nonword w hw hwc _ hpad _).symm
    _ = countWordFrom w none l := by rw [← hl]

theorem findWordEndAux_count (w : List Char) :
    ∀ (t : List Char) (p : Option Char) (i e : Nat),
      findWordEndAux w p t i = some e → 1 ≤ countWordFrom w p t := by
  intro t
  induction t with
  | nil => intro p i e h; simp [findWordEndAux] at h
  | cons c rest ih =>
    intro p i e h
    unfold findWordEndAux at h
    show 1 ≤ (if prevNonWord p && wordMatch w (c :: rest) then 1 else 0) +
      countWordFrom w (some c) rest
    split at h
    · next hcond => rw [if_pos hcond]; omega
    · have := ih (some c) (i + 1) e h
      omega

theorem safeTestB_count (w t : List Char) (h : safeTestB w t = true) :
    1 ≤ countWordFrom w none t := by
  unfold safeTestB safeTest regexTestG at h
  simp only [if_pos rfl] at h
  cases hf : findWordEndAux w none t 0 with
  | none => rw [hf] at h; simp at h
  | some e => exact findWordEndAux_count w t none 0 e hf

theorem splitOnNl_ne_nil : ∀ t : List Char, splitOnNl t ≠ [] := by
  intro t
  cases t with
  | nil => simp [splitOnNl]
  | cons c rest =>
    unfold splitOnNl
    split
    · simp
    · split <;> simp

theorem joinLines_splitOnNl : ∀ t : List Char, joinLines (splitOnNl t) = t := by
  intro t
  induction t with
  | nil => rfl
  | cons c rest ih =>
    unfold splitOnNl
    by_cases hc : c = '\n'
    · rw [if_pos hc]
      subst hc
      cases hS : splitOnNl rest with
      | nil => exact absurd hS (splitOnNl_ne_nil rest)
      | cons s ss =>
        rw [hS] at ih
        show ([] : List Char) ++ '\n' :: joinLines (s :: ss) = _
        rw [ih]
        rfl
    · rw [if_neg hc]
      cases hS : splitOnNl rest with
      | nil => exact absurd hS (splitOnNl_ne_nil rest)
      | cons s ss =>
        rw [hS] at ih
        cases ss with
        | nil =>
          show c :: s = c :: rest
          rw [show joinLines [s] = s from rfl] at ih
          rw [ih]
        | cons s2 ss2 =>
          show (c :: s) ++ '\n' :: joinLines (s2 :: ss2) = c :: rest
          show c :: (s ++ '\n' :: joinLines (s2 :: ss2)) = c :: rest
          rw [show s ++ '\n' :: joinLines (s2 :: ss2) = joinLines (s :: s2 :: ss2)
            from rfl, ih]

theorem countWordFrom_append_newline (w : List Char) (hw : w ≠ [])
    (hwc : ∀ c ∈ w, isWordChar c = true) (b : List Char) :
    ∀ (a : List Char) (p : Option Char),
      countWordFrom w p (a ++ '\n' :: b) =
        countWordFrom w p a + countWordFrom w none b := by
  intro a
  induction a with
  | nil =>
    intro p
    have hnl : isWordChar '\n' = false := by decide
    show (if prevNonWord p && wordMatch w ('\n' :: b) then 1 else 0) +
        countWordFrom w (some '\n') b = countWordFrom w p [] + countWordFrom w none b
    rw [wordMatch_head_nonword hw hwc hnl b,
      @countWordFrom_prev_inv w (some '\n') none
        (by simp [prevNonWord, hnl]) b]
    simp [countWordFrom]
  | cons c a2 ih =>
    intro p
    show (if prevNonWord p && wordMatch w ((c :: a2) ++ '\n' :: b) then 1 else 0) +
        countWordFrom w (some c) (a2 ++ '\n' :: b) = _
    rw [wordMatch_append_nonword '\n' (by decide) b w (c :: a2) hwc, ih (some c)]
    show _ = (if prevNonWord p && wordMatch w (c :: a2) then 1 else 0) +
      countWordFrom w (some c) a2 + countWordFrom w none b
    omega

theorem countWordFrom_joinLines (w : List Char) (hw : w ≠ [])
    (hwc : ∀ c ∈ w, isWordChar c = true) :
    ∀ ls : List (List Char),
      countWordFrom w none (joinLines ls) =
        (ls.map (countWordFrom w none)).sum := by
  intro ls
  induction ls with
  | nil => rfl
  | cons l ls2 ih =>
    cases ls2 with
    | nil => simp [joinLines]
    | cons l2 ls3 =>
      show countWordFrom w none (l ++ '\n' :: joinLines (l2 :: ls3)) = _
      rw [countWordFrom_append_newline w hw hwc _ l none, ih]
      simp

theorem sum_map_add {α : Type} (f g : α → Nat) :
    ∀ l : List α, (l.map fun x => f x + g x).sum = (l.map f).sum + (l.map g).sum := by
  intro l
  induction l with
  | nil => rfl
  | cons x xs ih =>
    simp only [List.map_cons, List.sum_cons, ih]
    omega

theorem sum_sum_comm {α β : Type} (ws : List α) (ls : List β) (f : α → β → Nat) :
    (ws.map fun w => (ls.map fun l => f w l).sum).sum =
      (ls.map fun l => (ws.map fun w => f w l).sum).sum := by
  induction ws with
  | nil => simp
  | cons w ws2 ih =>
    simp only [List.map_cons, List.sum_cons, ih, ← sum_map_add]

theorem loopWords_spec (lang : SLang) :
    ∀ w ∈ (PROFILES lang).loopWords, w ≠ [] ∧ ∀ c ∈ w, isWordChar c = true := by
  cases lang with
  | python =>
    intro w hw
    simp only [PROFILES, kwFor, kwWhile, List.mem_cons, List.not_mem_nil, or_false] at hw
    rcases hw with rfl | rfl <;> exact ⟨by decide, by decide⟩
  | java =>
    intro w hw
    simp only [PROFILES, kwFor, kwWhile, kwDo, List.mem_cons, List.not_mem_nil,
      or_false] at hw
    rcases hw with rfl | rfl | rfl <;> exact ⟨by decide, by decide⟩
  | c =>
    intro w hw
    simp only [PROFILES, kwFor, kwWhile, kwDo, List.mem_cons, List.not_mem_nil,
      or_false] at hw
    rcases hw with rfl | rfl | rfl <;> exact ⟨by decide, by decide⟩

/-- Indicator: does this line count as a loop line for the nesting scan. -/
def loopLineInd (lang : SLang) (line : List Char) : Nat :=
  if (trimChars line).isEmpty then 0
  else if (PROFILES lang).loopWords.any fun w => safeTestB w (trimChars line) then 1
  else 0

theorem braceLineCore_inv (lang : SLang) (st : ScanState) (t : List Char)
    (isLoop : Bool) (hP : st.stack.length ≤ st.maxDepth) :
    (braceLineCore lang st t isLoop).stack.length ≤
        (braceLineCore lang st t isLoop).maxDepth ∧
      (braceLineCore lang st t isLoop).maxDepth ≤
        st.maxDepth + (if isLoop then 1 else 0) := by
  unfold braceLineCore
  have hd : (st.stack.dropWhile fun e =>
      st.braceDepth - t.count '\x7d' < e.level).length ≤ st.stack.length :=
    (List.dropWhile_sublist _).length_le
  cases isLoop with
  | false =>
    refine ⟨?_, ?_⟩ <;> simp only [Bool.false_eq_true, if_false]
    · exact le_trans hd hP
    · exact Nat.le_refl _
  | true =>
    refine ⟨?_, ?_⟩ <;> simp only [if_true]
    · exact le_max_right _ _
    · simp only [List.length_cons]
      omega

theorem indentLineCore_inv (lang : SLang) (st : ScanState) (line t : List Char)
    (isLoop : Bool) (hP : st.stack.length ≤ st.maxDepth) :
    (indentLineCore lang st line t isLoop).stack.length ≤
        (indentLineCore lang st line t isLoop).maxDepth ∧
      (indentLineCore lang st line t isLoop).maxDepth ≤
        st.maxDepth + (if isLoop then 1 else 0) := by
  unfold indentLineCore
  have hd : (st.stack.dropWhile fun e =>
      (line.takeWhile isSpaceChar).length ≤ e.level).length ≤ st.stack.length :=
    (List.dropWhile_sublist _).length_le
  cases isLoop with
  | false =>
    refine ⟨?_, ?_⟩ <;> simp only [Bool.false_eq_true, if_false]
    · exact le_trans hd hP
    · exact Nat.le_refl _
  | true =>
    refine ⟨?_, ?_⟩ <;> simp only [if_true]
    · exact le_max_right _ _
    · simp only [List.length_cons]
      omega

theorem braceLineStep_inv (lang : SLang) (st : ScanState) (line : List Char)
    (hP : st.stack.length ≤ st.maxDepth) :
    (braceLineStep lang st line).stack.length ≤
        (braceLineStep lang st line).maxDepth ∧
      (braceLineStep lang st line).maxDepth ≤
        st.maxDepth + loopLineInd lang line := by
  unfold braceLineStep loopLineInd
  dsimp only
  by_cases he : (trimChars line).isEmpty
  · rw [if_pos he, if_pos he]
    exact ⟨hP, Nat.le_add_right _ _⟩
  · rw [if_neg he, if_neg he]
    by_cases hl : ((PROFILES lang).loopWords.any fun w =>
        safeTestB w (trimChars line)) = true
    · rw [hl]
      exact braceLineCore_inv lang st (trimChars line) true hP
    · rw [Bool.not_eq_true _ |>.mp hl]
      exact braceLineCore_inv lang st (trimChars line) false hP

theorem indentLineStep_inv (lang : SLang) (st : ScanState) (line : List Char)
    (hP : st.stack.length ≤ st.maxDepth) :
    (indentLineStep lang st line).stack.length ≤
        (indentLineStep lang st line).maxDepth ∧
      (indentLineStep lang st line).maxDepth ≤
        st.maxDepth + loopLineInd lang line := by
  unfold indentLineStep loopLineInd
  dsimp only
  by_cases he : (trimChars line).isEmpty
  · rw [if_pos he, if_pos he]
    exact ⟨hP, Nat.le_add_right _ _⟩
  · rw [if_neg he, if_neg he]
    by_cases hl : ((PROFILES lang).loopWords.any fun w =>
        safeTestB w (trimChars line)) = true
    · rw [hl]
      exact indentLineCore_inv lang st line (trimChars line) true hP
    · rw [Bool.not_eq_true _ |>.mp hl]
      exact indentLineCore_inv lang st line (trimChars line) false hP

theorem foldl_maxDepth_le (step : ScanState → List Char → ScanState)
    (ind : List Char → Nat)
    (hstep : ∀ st line, st.stack.length ≤ st.maxDepth →
      (step st line).stack.length ≤ (step st line).maxDepth ∧
        (step st line).maxDepth ≤ st.maxDepth + ind line) :
    ∀ (lines : List (List Char)) (st : ScanState), st.stack.length ≤ st.maxDepth →
      (lines.foldl step st).maxDepth ≤ st.maxDepth + (lines.map ind).sum := by
  intro lines
  induction lines with
  | nil => intro st _; simp
  | cons l ls ih =>
    intro st h
    obtain ⟨h1, h2⟩ := hstep st l h
    have h3 := ih (step st l) h1
    simp only [List.foldl_cons, List.map_cons, List.sum_cons]
    omega

theorem analyseScan_maxDepth_le (lang : SLang) (lines : List (List Char)) :
    (analyseScan lang lines).maxDepth ≤ (lines.map (loopLineInd lang)).sum := by
  unfold analyseScan
  split
  · have h := foldl_maxDepth_le (braceLineStep lang) (loopLineInd lang)
      (fun st l hp => braceLineStep_inv lang st l hp) lines initialScanState
      (Nat.le_refl 0)
    simpa [initialScanState] using h
  · have h := foldl_maxDepth_le (indentLineStep lang) (loopLineInd lang)
      (fun st l hp => indentLineStep_inv lang st l hp) lines initialScanState
      (Nat.le_refl 0)
    simpa [initialScanState] using h

theorem loopLineInd_le_sum (lang : SLang) (l : List Char) :
    loopLineInd lang l ≤
      ((PROFILES lang).loopWords.map fun w => countWordFrom w none l).sum := by
  unfold loopLineInd
  split
  · exact Nat.zero_le _
  · split
    · next hany =>
      obtain ⟨w, hwmem, hwtest⟩ := List.any_eq_true.mp hany
      obtain ⟨hne, hword⟩ := loopWords_spec lang w hwmem
      have h1 : 1 ≤ countWordFrom w none (trimChars l) := safeTestB_count w _ hwtest
      rw [countWord_trim w hne hword l] at h1
      calc 1 ≤ countWordFrom w none l := h1
        _ ≤ _ := List.single_le_sum (fun x _ => Nat.zero_le x) _
          (List.mem_map_of_mem (fun u => countWordFrom u none l) hwmem)
    · exact Nat.zero_le _

theorem analyseResolved_maxDepth_le_count (code : List Char) (lang : SLang) :
    (analyseResolved code lang).loops.maxDepth ≤
      (analyseResolved code lang).loops.count := by
  have hproj : (analyseResolved code lang).loops =
      ⟨((PROFILES lang).loopWords.map fun w =>
          countWordFrom w none ((PROFILES lang).removeComments code)).sum,
        (analyseScan lang (splitOnNl ((PROFILES lang).removeComments code))).maxDepth⟩ :=
    rfl
  rw [hproj]
  show (analyseScan lang (splitOnNl ((PROFILES lang).removeComments code))).maxDepth ≤
    ((PROFILES lang).loopWords.map fun w =>
      countWordFrom w none ((PROFILES lang).removeComments code)).sum
  have h1 := analyseScan_maxDepth_le lang
    (splitOnNl ((PROFILES lang).removeComments code))
  have h2 : ((splitOnNl ((PROFILES lang).removeComments code)).map
        (loopLineInd lang)).sum ≤
      ((splitOnNl ((PROFILES lang).removeComments code)).map fun l =>
        ((PROFILES lang).loopWords.map fun w => countWordFrom w none l).sum).sum :=
    List.sum_le_sum (fun l _ => loopLineInd_le_sum lang l)
  have h3a : ((PROFILES lang).loopWords.map fun w =>
        countWordFrom w none ((PROFILES lang).removeComments code)) =
      ((PROFILES lang).loopWords.map fun w =>
        ((splitOnNl ((PROFILES lang).removeComments code)).map fun l =>
          countWordFrom w none l).sum) := by
    apply List.map_congr_left
    intro w hw
    obtain ⟨hne, hword⟩ := loopWords_spec lang w hw
    conv_lhs => rw [← joinLines_splitOnNl ((PROFILES lang).removeComments code)]
    exact countWordFrom_joinLines w hne hword _
  have h3 : ((PROFILES lang).loopWords.map fun w =>
        countWordFrom w none ((PROFILES lang).removeComments code)).sum =
      ((splitOnNl ((PROFILES lang).removeComments code)).map fun l =>
        ((PROFILES lang).loopWords.map fun w => countWordFrom w none l).sum).sum := by
    rw [h3a, sum_sum_comm]
  omega

/-! ## The CST walk: loop observations and their depths -/

/-- The child depth chosen by one `walk` visit (incremented below a loop node). -/
def walkNodeNextDepth (a : LanguageAdapter) (ty : String) (d : Nat) : Nat :=
  if (a.loopNodes.lookup ty).isSome then d + 1 else d

/-- The accumulator a `walk` visit hands to its children (the node-local
observations of `walkNode`, before recursing). -/
def walkNodeAcc4 (a : LanguageAdapter) (lang : SLang) (ty : String) (tx : List Char)
    (d : Nat) (acc : IrAcc) : IrAcc :=
  let loopKind := a.loopNodes.lookup ty
  let nextDepth := if loopKind.isSome then d + 1 else d
  let acc1 :=
    match loopKind with
    | some k => { acc with loops := acc.loops ++ [⟨k, nextDepth, boundHintFromText tx⟩] }
    | none => acc
  let acc2 := a.sortCallTests.foldl
    (fun ac f =>
      if scanAny f none tx then
        { ac with sortingCalls := setAdd ac.sortingCalls ((trimChars tx).take 120) }
      else ac) acc1
  let acc3 := a.libraryOpTests.foldl
    (fun ac f =>
      if scanAny f none tx then
        { ac with libraryOps := setAdd ac.libraryOps ((trimChars tx).take 120) }
      else ac) acc2
  if a.functionNodeTypes.contains ty then
    match getRecursionSignal tx (extractFunctionName tx lang) with
    | some sig => { acc3 with recursion := acc3.recursion ++ [sig] }
    | none => acc3
  else acc3

theorem walkNode_eq_children (a : LanguageAdapter) (lang : SLang) (ty : String)
    (tx : List Char) (ch : List TSNode) (d : Nat) (acc : IrAcc) :
    walkNode a lang (.mk ty tx ch) d acc =
      walkChildren a lang ch (walkNodeNextDepth a ty d)
        (walkNodeAcc4 a lang ty tx d acc) := rfl

theorem walkChildren_cons_eq (a : LanguageAdapter) (lang : SLang) (c : TSNode)
    (cs : List TSNode) (d : Nat) (acc : IrAcc) :
    walkChildren a lang (c :: cs) d acc =
      walkChildren a lang cs d (walkNode a lang c d acc) := rfl

theorem foldl_scan_loops {β : Type} (f : IrAcc → β → IrAcc)
    (h : ∀ ac b, (f ac b).loops = ac.loops) :
    ∀ (l : List β) (ac : IrAcc), (l.foldl f ac).loops = ac.loops := by
  intro l
  induction l with
  | nil => intro ac; rfl
  | cons b bs ih => intro ac; rw [List.foldl_cons, ih, h]

theorem walkNodeAcc4_loops (a : LanguageAdapter) (lang : SLang) (ty : String)
    (tx : List Char) (d : Nat) (acc : IrAcc) :
    (walkNodeAcc4 a lang ty tx d acc).loops =
      acc.loops ++ (match a.loopNodes.lookup ty with
        | some k => [⟨k, walkNodeNextDepth a ty d, boundHintFromText tx⟩]
        | none => []) := by
  unfold walkNodeAcc4 walkNodeNextDepth
  have hlib := foldl_scan_loops
    (fun (ac : IrAcc) (f : Option Char → List Char → Bool) =>
      if scanAny f none tx then
        { ac with libraryOps := setAdd ac.libraryOps ((trimChars tx).take 120) }
      else ac)
    (fun ac b => by dsimp only; split <;> rfl)
  have hsort := foldl_scan_loops
    (fun (ac : IrAcc) (f : Option Char → List Char → Bool) =>
      if scanAny f none tx then
        { ac with sortingCalls := setAdd ac.sortingCalls ((trimChars tx).take 120) }
      else ac)
    (fun ac b => by dsimp only; split <;> rfl)
  cases hk : a.loopNodes.lookup ty with
  | none =>
    dsimp only
    split
    · split
      · rw [hlib, hsort]
        simp
      · rw [hlib, hsort]
        simp
    · rw [hlib, hsort]
      simp
  | some kk =>
    dsimp only
    split
    · split
      · rw [hlib, hsort]
      · rw [hlib, hsort]
    · rw [hlib, hsort]

theorem walk_loops_spec (a : LanguageAdapter) (lang : SLang) :
    ∀ k : Nat,
      (∀ (n : TSNode) (d : Nat) (acc : IrAcc), sizeOf n ≤ k →
        ∃ L, (walkNode a lang n d acc).loops = acc.loops ++ L ∧
          ∀ e ∈ L, e.depth ≤ d + L.length) ∧
      (∀ (cs : List TSNode) (d : Nat) (acc : IrAcc), sizeOf cs ≤ k →
        ∃ L, (walkChildren a lang cs d acc).loops = acc.loops ++ L ∧
          ∀ e ∈ L, e.depth ≤ d + L.length) := by
  intro k
  induction k using Nat.strong_induction_on with
  | _ k ih =>
    constructor
    · intro n d acc hsz
      obtain ⟨ty, tx, ch⟩ := n
      have hspec := TSNode.mk.sizeOf_spec ty tx ch
      have hch : sizeOf ch < k := by omega
      obtain ⟨L, hL, hdep⟩ := (ih (sizeOf ch) hch).2 ch (walkNodeNextDepth a ty d)
        (walkNodeAcc4 a lang ty tx d acc) (Nat.le_refl _)
      rw [walkNode_eq_children]
      cases hk : a.loopNodes.lookup ty with
      | none =>
        have h2 : walkNodeNextDepth a ty d = d := by
          unfold walkNodeNextDepth
          rw [hk]
          rfl
        refine ⟨L, ?_, ?_⟩
        · rw [hL, walkNodeAcc4_loops, hk]
          simp
        · intro e he
          have h1 := hdep e he
          rw [h2] at h1
          exact h1
      | some kk =>
        have h2 : walkNodeNextDepth a ty d = d + 1 := by
          unfold walkNodeNextDepth
          rw [hk]
          rfl
        refine ⟨⟨kk, walkNodeNextDepth a ty d, boundHintFromText tx⟩ :: L, ?_, ?_⟩
        · rw [hL, walkNodeAcc4_loops, hk]
          simp
        · intro e he
          rcases List.mem_cons.mp he with rfl | he2
          · simp only [List.length_cons, h2]
            omega
          · have h1 := hdep e he2
            rw [h2] at h1
            simp only [List.length_cons]
            omega
    · intro cs d acc hsz
      cases cs with
      | nil =>
        exact ⟨[], by simp [walkChildren], fun e he => absurd he (List.not_mem_nil e)⟩
      | cons c cs2 =>
        have hspec := List.cons.sizeOf_spec c cs2
        have hc : sizeOf c < k := by omega
        have hcs : sizeOf cs2 < k := by omega
        obtain ⟨L1, hL1, hdep1⟩ := (ih (sizeOf c) hc).1 c d acc (Nat.le_refl _)
        obtain ⟨L2, hL2, hdep2⟩ := (ih (sizeOf cs2) hcs).2 cs2 d
          (walkNode a lang c d acc) (Nat.le_refl _)
        refine ⟨L1 ++ L2, ?_, ?_⟩
        · rw [walkChildren_cons_eq, hL2, hL1, List.append_assoc]
        · intro e he
          have hlen := List.length_append L1 L2
          rcases List.mem_append.mp he with h1 | h2
          · have := hdep1 e h1
            omega
          · have := hdep2 e h2
            omega

theorem foldl_max_depth_le (b : Nat) :
    ∀ L : List LoopObs, (∀ e ∈ L, e.depth ≤ b) →
      ∀ init : Nat, init ≤ b →
        L.foldl (fun best l => max best l.depth) init ≤ b := by
  intro L
  induction L with
  | nil => intro _ init h; exact h
  | cons e es ih =>
    intro hb init h
    exact ih (fun x hx => hb x (List.mem_cons_of_mem _ hx)) (max init e.depth)
      (max_le h (hb e (List.mem_cons_self _ _)))

theorem analyseCst_maxDepth_le_count (root : TSNode) (code : String)
    (chosenLang : Lang) :
    (analyseWithTreeSitter (.ok root) code chosenLang).loops.maxDepth ≤
      (analyseWithTreeSitter (.ok root) code chosenLang).loops.count := by
  have hproj : (analyseWithTreeSitter (.ok root) code chosenLang).loops =
      ⟨(buildNormalizedIr root (resolveLang chosenLang)).loops.length,
        (buildNormalizedIr root (resolveLang chosenLang)).loops.foldl
          (fun best l => max best l.depth) 0⟩ := rfl
  rw [hproj]
  show (buildNormalizedIr root (resolveLang chosenLang)).loops.foldl
      (fun best l => max best l.depth) 0 ≤
    (buildNormalizedIr root (resolveLang chosenLang)).loops.length
  obtain ⟨L, hL, hdep⟩ := (walk_loops_spec (ADAPTERS (resolveLang chosenLang))
    (resolveLang chosenLang) (sizeOf root)).1 root 0 ⟨[], [], [], []⟩ (Nat.le_refl _)
  have hloops : (buildNormalizedIr root (resolveLang chosenLang)).loops = L := by
    show (walkNode (ADAPTERS (resolveLang chosenLang)) (resolveLang chosenLang)
      root 0 ⟨[], [], [], []⟩).loops = L
    rw [hL]
    simp
  rw [hloops]
  exact foldl_max_depth_le L.length L (fun e he => by have := hdep e he; omega) 0
    (Nat.zero_le _)

/-- C10: on every input string and language tag, the reported loop nesting
depth never exceeds the reported loop count — on the lexical path, and on the
CST path for every parse outcome (including the fallback on failure). -/
theorem C10_maxDepth_le_count (code : String) (chosenLang : Lang) :
    (analyse code chosenLang).loops.maxDepth ≤
        (analyse code chosenLang).loops.count ∧
      ∀ outcome : Except CstFailure TSNode,
        (analyseWithTreeSitter outcome code chosenLang).loops.maxDepth ≤
          (analyseWithTreeSitter outcome code chosenLang).loops.count := by
  refine ⟨analyseResolved_maxDepth_le_count code.toList (resolveLang chosenLang), ?_⟩
  intro outcome
  cases outcome with
  | ok root => exact analyseCst_maxDepth_le_count root code chosenLang
  | error e =>
    show (analyseResolved code.toList (resolveLang chosenLang)).loops.maxDepth ≤
      (analyseResolved code.toList (resolveLang chosenLang)).loops.count
    exact analyseResolved_maxDepth_le_count code.toList (resolveLang chosenLang)

end Onalyser
